import Mathlib

/-!
Verification of the handle-based KV cache
(`src/practical/KV_cache/assets/`): the 64-bit handle codec `FdToken`,
the fixed-capacity open-addressed index `FlatIndexMap`, the single-owner
cache `FdKVCache` and the static construction / validation logic of
`ShardedFdKVCache`.

Machine integers are modelled by `Nat` with explicit `% 2^w` where the
C++ code masks or truncates.  `uint8_t` parameters are `Nat`s constrained
by `< 2^8` (the implicit conversion at a C++ call boundary).  Fallible
operations return `Option`/`Bool × state` pairs.
-/

set_option maxHeartbeats 1000000

namespace KVCache

/-! ## Handle codec (`fd_token.h`, `FdToken`) -/

namespace FdToken

/-- `kPositionBits = 32`. -/
def kPositionBits : Nat := 32

/-- `kGenerationBits = 24`. -/
def kGenerationBits : Nat := 24

/-- `kTypeBits = 8`. -/
def kTypeBits : Nat := 8

/-- The reserved null handle. -/
def kNull : Nat := 0

/-- `FdToken::Make`: bit-packs `[type:8 | generation:24 | position:32]`.
The C++ shifts-and-masks on `uint64_t` (`(x << s) & mask`) are expressed
as truncation of each field followed by multiplication with the shift. -/
def Make (type generation position : Nat) : Nat :=
  (type % 2 ^ kTypeBits) * 2 ^ (kPositionBits + kGenerationBits) +
    (generation % 2 ^ kGenerationBits) * 2 ^ kPositionBits +
    position % 2 ^ kPositionBits

/-- `FdToken::Type` (named `TypeOf` since `Type` is reserved in Lean): `(token & kTypeMask) >> 56` for a 64-bit token. -/
def TypeOf (token : Nat) : Nat :=
  token / 2 ^ (kPositionBits + kGenerationBits) % 2 ^ kTypeBits

/-- `FdToken::Generation`: `(token & kGenerationMask) >> 32`. -/
def Generation (token : Nat) : Nat :=
  token / 2 ^ kPositionBits % 2 ^ kGenerationBits

/-- `FdToken::Position`: `token & kPositionMask`. -/
def Position (token : Nat) : Nat :=
  token % 2 ^ kPositionBits

/-- `FdToken::IsNull`. -/
def IsNull (token : Nat) : Bool :=
  token == kNull

end FdToken

/-! ## Sharded-cache static construction functions (`fd_token.h`,
`ShardedFdKVCache`) -/

namespace ShardedFdKVCache

/-- `kShardBits = 8`. -/
def kShardBits : Nat := 8

/-- `kLocalBits = FdToken::kPositionBits - kShardBits = 24`. -/
def kLocalBits : Nat := FdToken.kPositionBits - kShardBits

/-- `kMaxShards = 1 << kShardBits = 256`. -/
def kMaxShards : Nat := 2 ^ kShardBits

/-- `kLocalMask = (1 << kLocalBits) - 1`. -/
def kLocalMask : Nat := 2 ^ kLocalBits - 1

/-- `ShardedFdKVCache::NormalizeShardCount`. -/
def NormalizeShardCount (shard_count : Nat) : Nat :=
  if shard_count = 0 then 1
  else if shard_count > kMaxShards then kMaxShards
  else shard_count

/-- `ShardedFdKVCache::ComputePerShardCapacity`.  The sum
`total + shard_count - 1` is `size_t` arithmetic and wraps modulo `2^64`
for `reserve_hint` near `2^64`; the `per_shard == 0` guard below exists
exactly for that overflow. -/
def ComputePerShardCapacity (shard_count reserve_hint : Nat) : Nat :=
  let total := if reserve_hint = 0 then 2 ^ 15 else reserve_hint
  let per_shard := (total + shard_count - 1) % 2 ^ 64 / shard_count
  let per_shard := if per_shard = 0 then 1 else per_shard
  let hard_limit := kLocalMask + 1
  if per_shard > hard_limit then hard_limit else per_shard

end ShardedFdKVCache

/-! ## Flat index (`detail/flat_index_map.h`)

`Key` is specialised to `Nat`; the `Hash` functor becomes an explicit
function field `hashf` and `KeyEqual` is `Nat` equality.  The table is
a `List Entry`; `table_[idx]` becomes `List.getD idx default`.  Since the
physical table length is always a power of two with `mask = length - 1`,
the C++ addressing `hash & mask` is expressed as `hash % (mask + 1)`. -/

namespace detail

/-- `NextPowerOfTwo`: the bit-smearing round-up used by `FlatIndexMap`
(the `uint64_t`/`size_t` variant, with the `>> 32` smear step included).
The smear steps cannot overflow, but the final `n + 1` is `size_t`
arithmetic and wraps modulo `2^64` (it produces 0 when the smeared value
is `2^64 - 1`, i.e. for inputs above `2^63`). -/
def NextPowerOfTwo (n : Nat) : Nat :=
  if n ≤ 1 then 1
  else
    let m := n - 1
    let m := m ||| (m >>> 1)
    let m := m ||| (m >>> 2)
    let m := m ||| (m >>> 4)
    let m := m ||| (m >>> 8)
    let m := m ||| (m >>> 16)
    let m := m ||| (m >>> 32)
    (m + 1) % 2 ^ 64

/-- Entry states `kEmpty`, `kOccupied`, `kDeleted`. -/
inductive EState where
  | empty
  | occupied
  | deleted
deriving DecidableEq, Repr

/-- `FlatIndexMap::Entry`; the default (`Entry{}`) is an empty entry with
zeroed key and value. -/
structure Entry where
  key : Nat
  value : Nat
  state : EState
deriving DecidableEq, Repr

instance : Inhabited Entry := ⟨⟨0, 0, .empty⟩⟩

/-- `FlatIndexMap` state: the bucket array plus the bookkeeping counters. -/
structure FlatIndexMap where
  hashf : Nat → Nat
  table : List Entry
  mask : Nat
  max_entries : Nat
  size : Nat
  tombstones : Nat

/-- `FlatIndexMap::Init`.  `max_entries_ * 2` and `capacity - 1` are
`size_t` arithmetic and wrap modulo `2^64` (the subtraction only wraps
when `capacity = 0`, which `NextPowerOfTwo` can return for huge inputs). -/
def FlatIndexMap.Init (hashf : Nat → Nat) (max_entries : Nat) : FlatIndexMap :=
  let me := if max_entries = 0 then 1 else max_entries
  let capacity := NextPowerOfTwo (me * 2 % 2 ^ 64)
  { hashf := hashf, table := List.replicate capacity default,
    mask := (capacity + (2 ^ 64 - 1)) % 2 ^ 64, max_entries := me, size := 0,
    tombstones := 0 }

/-- `FlatIndexMap::ProbeStart`: `hasher_(key) & mask_`. -/
def FlatIndexMap.ProbeStart (m : FlatIndexMap) (key : Nat) : Nat :=
  m.hashf key % (m.mask + 1)

/-- The bucket `table_[idx]` (a `List.getD`; every use is in range once
`mask + 1 = table.length`). -/
def FlatIndexMap.cell (m : FlatIndexMap) (idx : Nat) : Entry :=
  m.table.getD idx default

/-- `FlatIndexMap::NextIndex`: `(idx + 1) & mask_`. -/
def FlatIndexMap.NextIndex (m : FlatIndexMap) (idx : Nat) : Nat :=
  (idx + 1) % (m.mask + 1)

/-- `FlatIndexMap::CanInsertNew`: `size_ < max_entries_`. -/
def FlatIndexMap.CanInsertNew (m : FlatIndexMap) : Bool :=
  m.size < m.max_entries

/-- The probe loop of `FlatIndexMap::Find`; `fuel` counts the remaining
iterations of the `for` loop (at most `table_.size()`). -/
def FlatIndexMap.findLoop (m : FlatIndexMap) (key : Nat) :
    Nat → Nat → Option Nat
  | 0, _ => none
  | fuel + 1, idx =>
    if (m.cell idx).state = .empty then none
    else if (m.cell idx).state = .occupied ∧ (m.cell idx).key = key then
      some (m.cell idx).value
    else m.findLoop key fuel (m.NextIndex idx)

/-- `FlatIndexMap::Find` (the `out_value` pointer becomes an `Option`). -/
def FlatIndexMap.Find (m : FlatIndexMap) (key : Nat) : Option Nat :=
  if m.table.isEmpty then none
  else m.findLoop key m.table.length (m.ProbeStart key)

/-- `FlatIndexMap::InsertAt`. -/
def FlatIndexMap.InsertAt (m : FlatIndexMap) (idx key value : Nat) :
    Bool × FlatIndexMap :=
  if (m.cell idx).state = .occupied then
    (true, { m with
      table := m.table.set idx { m.cell idx with value := value } })
  else if m.CanInsertNew = false then
    (false, m)
  else
    (true, { m with
      table := m.table.set idx { key := key, value := value, state := .occupied },
      size := m.size + 1,
      tombstones := if (m.cell idx).state = .deleted then m.tombstones - 1
        else m.tombstones })

/-- The probe loop of `FlatIndexMap::Insert`, tracking the first deleted
(tombstone) index seen; the fuel-exhausted case is the code after the
`for` loop. -/
def FlatIndexMap.insertLoop (m : FlatIndexMap) (key value : Nat) :
    Nat → Nat → Option Nat → Bool × FlatIndexMap
  | 0, _, first_deleted =>
    match first_deleted with
    | some j => m.InsertAt j key value
    | none => (false, m)
  | fuel + 1, idx, first_deleted =>
    if (m.cell idx).state = .empty then
      m.InsertAt (first_deleted.getD idx) key value
    else if (m.cell idx).state = .deleted then
      m.insertLoop key value fuel (m.NextIndex idx)
        (if first_deleted.isSome then first_deleted else some idx)
    else if (m.cell idx).key = key then
      (true, { m with
        table := m.table.set idx { m.cell idx with value := value } })
    else
      m.insertLoop key value fuel (m.NextIndex idx) first_deleted

/-- `FlatIndexMap::Insert`. -/
def FlatIndexMap.Insert (m : FlatIndexMap) (key value : Nat) :
    Bool × FlatIndexMap :=
  if m.table.isEmpty then (false, m)
  else m.insertLoop key value m.table.length (m.ProbeStart key) none

/-- The probe loop of `FlatIndexMap::Erase`. -/
def FlatIndexMap.eraseLoop (m : FlatIndexMap) (key : Nat) :
    Nat → Nat → Bool × FlatIndexMap
  | 0, _ => (false, m)
  | fuel + 1, idx =>
    if (m.cell idx).state = .empty then (false, m)
    else if (m.cell idx).state = .occupied ∧ (m.cell idx).key = key then
      (true, { m with
        table := m.table.set idx { m.cell idx with state := .deleted },
        size := m.size - 1, tombstones := m.tombstones + 1 })
    else m.eraseLoop key fuel (m.NextIndex idx)

/-- `FlatIndexMap::Erase`. -/
def FlatIndexMap.Erase (m : FlatIndexMap) (key : Nat) : Bool × FlatIndexMap :=
  if m.table.isEmpty then (false, m)
  else m.eraseLoop key m.table.length (m.ProbeStart key)

end detail

/-! ## Single-owner cache (`fd_kv_cache_single.h`, `FdKVCache`)

`Key` and `Value` are specialised to `Nat`.  Handles are `Nat`s below
`2^64`.  The `free_positions_` vector is a `List` whose head is the
vector's back (`push_back`/`pop_back` act on the head). -/

namespace FdKVCache

/-- `kInvalidPosition = 0xffffffff`. -/
def kInvalidPosition : Nat := 2 ^ 32 - 1

/-- `kMaxGeneration = (1 << kGenerationBits) - 1`. -/
def kMaxGeneration : Nat := 2 ^ FdToken.kGenerationBits - 1

/-- `FdKVCache::Slot`; the default (`Slot{}`) has `generation = 1`,
everything else zeroed.  The `reserved` padding field is omitted. -/
structure Slot where
  key : Nat
  value : Nat
  generation : Nat
  type : Nat
  occupied : Bool
deriving DecidableEq, Repr

instance : Inhabited Slot := ⟨⟨0, 0, 1, 0, false⟩⟩

end FdKVCache

/-- The single-owner cache state. -/
structure FdKVCache where
  slots : List FdKVCache.Slot
  free_positions : List Nat
  key_to_position : detail.FlatIndexMap
  next_unused : Nat
  size : Nat

namespace FdKVCache

/-- `FdKVCache::Reserve`; with the constructor, `Reserve hashf n` is the
freshly constructed cache of requested capacity `n`. -/
def Reserve (hashf : Nat → Nat) (n : Nat) : FdKVCache :=
  let n := if n = 0 then 1 else n
  { slots := List.replicate n default, free_positions := [],
    key_to_position := detail.FlatIndexMap.Init hashf n,
    next_unused := 0, size := 0 }

/-- `FdKVCache::AllocatePosition`. -/
def AllocatePosition (s : FdKVCache) : Nat × FdKVCache :=
  match s.free_positions with
  | pos :: rest => (pos, { s with free_positions := rest })
  | [] =>
    if s.next_unused ≥ s.slots.length then (kInvalidPosition, s)
    else (s.next_unused, { s with next_unused := s.next_unused + 1 })

/-- `FdKVCache::NextGeneration`. -/
def NextGeneration (g : Nat) : Nat :=
  if g ≥ kMaxGeneration then 1 else g + 1

/-- The slot `slots_[pos]` (a `List.getD`; every use is in range). -/
def slotAt (s : FdKVCache) (pos : Nat) : Slot :=
  s.slots.getD pos default

/-- `FdKVCache::BuildHandle`. -/
def BuildHandle (s : FdKVCache) (pos : Nat) : Nat :=
  let slot := s.slotAt pos
  FdToken.Make slot.type slot.generation pos

/-- `FdKVCache::ValidateHandle`; `none` models `kInvalidPosition`. -/
def ValidateHandle (s : FdKVCache) (handle : Nat) : Option Nat :=
  if FdToken.IsNull handle then none
  else
    let pos := FdToken.Position handle
    if pos ≥ s.slots.length then none
    else
      let slot := s.slotAt pos
      if slot.occupied = false then none
      else if slot.type ≠ FdToken.TypeOf handle then none
      else if slot.generation ≠ FdToken.Generation handle then none
      else some pos

/-- `FdKVCache::Get`; the returned `Value*` becomes an `Option` holding
the pointed-to value (`none` models the null pointer). -/
def Get (s : FdKVCache) (handle : Nat) : Option Nat :=
  match s.ValidateHandle handle with
  | none => none
  | some pos => some (s.slotAt pos).value

/-- `FdKVCache::Insert`, returning the handle together with the updated
cache state. -/
def Insert (s : FdKVCache) (type key value : Nat) : Nat × FdKVCache :=
  match s.key_to_position.Find key with
  | some pos => (s.BuildHandle pos, s)
  | none =>
    let alloc := s.AllocatePosition
    let pos := alloc.1
    let s1 := alloc.2
    if pos = kInvalidPosition then (FdToken.kNull, s1)
    else
      let slot0 := s1.slotAt pos
      let slot := { slot0 with
        key := key, value := value, type := type, occupied := true }
      let s2 := { s1 with slots := s1.slots.set pos slot }
      let ins := s2.key_to_position.Insert slot.key pos
      if ins.1 then
        let s3 := { s2 with key_to_position := ins.2, size := s2.size + 1 }
        (s3.BuildHandle pos, s3)
      else
        (FdToken.kNull,
          { s2 with
            key_to_position := ins.2,
            slots := s2.slots.set pos { slot with occupied := false },
            free_positions := pos :: s2.free_positions })

/-- `FdKVCache::InsertOrAssign`. -/
def InsertOrAssign (s : FdKVCache) (type key value : Nat) : Nat × FdKVCache :=
  match s.key_to_position.Find key with
  | some pos =>
    let slot := s.slotAt pos
    let s1 := { s with
      slots := s.slots.set pos { slot with value := value, type := type } }
    (s1.BuildHandle pos, s1)
  | none => s.Insert type key value

/-- `FdKVCache::Erase`. -/
def Erase (s : FdKVCache) (handle : Nat) : Bool × FdKVCache :=
  match s.ValidateHandle handle with
  | none => (false, s)
  | some pos =>
    let slot := s.slotAt pos
    let er := s.key_to_position.Erase slot.key
    if er.1 = false then (false, { s with key_to_position := er.2 })
    else
      (true, { s with
        key_to_position := er.2,
        slots := s.slots.set pos { slot with
          occupied := false, type := 0,
          generation := NextGeneration slot.generation },
        free_positions := pos :: s.free_positions,
        size := s.size - 1 })

/-- `FdKVCache::FindHandle`. -/
def FindHandle (s : FdKVCache) (key : Nat) : Nat :=
  match s.key_to_position.Find key with
  | none => FdToken.kNull
  | some pos => s.BuildHandle pos

end FdKVCache

/-! ## Sequential model of the sharded cache's handle-validated
operations (`fd_token.h`, `ShardedFdKVCache`)

Only the parts the claims need: construction, position decoding, slot
validation and the lock-protected `Read`/`Write`/`Update` (the lock is a
no-op in this sequential model; a callback `Reader`/`Writer` becomes a
function on the stored value). -/

namespace ShardedFdKVCache

/-- `kInvalidPosition = 0xffffffff`. -/
def kInvalidPosition : Nat := 2 ^ 32 - 1

/-- `kMaxGeneration = (1 << kGenerationBits) - 1`. -/
def kMaxGeneration : Nat := 2 ^ FdToken.kGenerationBits - 1

/-- A shard: slot array, freelist, local flat index and bump cursor
(the `std::shared_mutex` has no sequential content).  The slot layout is
the same as the single-owner cache's. -/
structure Shard where
  slots : List FdKVCache.Slot
  free_positions : List Nat
  key_to_local : detail.FlatIndexMap
  next_unused : Nat

instance : Inhabited Shard :=
  ⟨⟨[], [], detail.FlatIndexMap.Init id 0, 0⟩⟩

/-- The sharded cache state (the relaxed atomic `size_` is a plain
counter in this sequential model). -/
structure State where
  shard_count : Nat
  per_shard_capacity : Nat
  shards : List Shard
  hashf : Nat → Nat
  size : Nat

/-- The `ShardedFdKVCache` constructor. -/
def Construct (hashf : Nat → Nat) (shard_count reserve_hint : Nat) : State :=
  let sc := NormalizeShardCount shard_count
  let cap := ComputePerShardCapacity sc reserve_hint
  { shard_count := sc, per_shard_capacity := cap,
    shards := List.replicate sc
      { slots := List.replicate cap default, free_positions := [],
        key_to_local := detail.FlatIndexMap.Init hashf cap, next_unused := 0 },
    hashf := hashf, size := 0 }

/-- `ShardedFdKVCache::DecodePosition`: `pos >> kLocalBits` and
`pos & kLocalMask` are `pos / 2^24` and `pos % 2^24`. -/
def DecodePosition (handle : Nat) : Nat × Nat :=
  if FdToken.IsNull handle then (kInvalidPosition, kInvalidPosition)
  else
    let pos := FdToken.Position handle
    (pos / 2 ^ kLocalBits, pos % 2 ^ kLocalBits)

/-- `ShardedFdKVCache::ValidShardId`. -/
def ValidShardId (s : State) (shard_id : Nat) : Bool :=
  shard_id < s.shard_count

/-- `ShardedFdKVCache::ValidateSlot`. -/
def ValidateSlot (slot : FdKVCache.Slot) (handle : Nat) : Bool :=
  if slot.occupied = false then false
  else if slot.type ≠ FdToken.TypeOf handle then false
  else if slot.generation ≠ FdToken.Generation handle then false
  else true

/-- `ShardedFdKVCache::Read`; the value handed to the `reader` callback
is returned as `some` (`none` models returning `false`). -/
def Read (s : State) (handle : Nat) : Option Nat :=
  let d := DecodePosition handle
  if ValidShardId s d.1 = false ∨ d.2 ≥ s.per_shard_capacity then none
  else
    let shard := s.shards.getD d.1 default
    let slot := shard.slots.getD d.2 default
    if ValidateSlot slot handle then some slot.value else none

/-- `ShardedFdKVCache::Get(handle, out_value)`, defined through `Read`. -/
def Get (s : State) (handle : Nat) : Option Nat :=
  Read s handle

/-- `ShardedFdKVCache::Write`; the `Writer` callback becomes a function
on the stored value. -/
def Write (s : State) (handle : Nat) (writer : Nat → Nat) : Bool × State :=
  let d := DecodePosition handle
  if ValidShardId s d.1 = false ∨ d.2 ≥ s.per_shard_capacity then (false, s)
  else
    let shard := s.shards.getD d.1 default
    let slot := shard.slots.getD d.2 default
    if ValidateSlot slot handle then
      (true, { s with
        shards := s.shards.set d.1 { shard with
          slots := shard.slots.set d.2 { slot with value := writer slot.value } } })
    else (false, s)

/-- `ShardedFdKVCache::Update`. -/
def Update (s : State) (handle : Nat) (value : Nat) : Bool × State :=
  Write s handle (fun _ => value)

/-- `ShardedFdKVCache::Add`. -/
def Add (s : State) (handle : Nat) (delta : Nat) : Bool × State :=
  Write s handle (fun v => v + delta)

end ShardedFdKVCache

/-! ## Proof infrastructure: cells, occupancy counts, operation traces
and reachability invariants -/

namespace detail

/-- Number of `kOccupied` buckets of a table. -/
def countOccEntries (tbl : List Entry) : Nat :=
  tbl.countP (fun e => e.state == .occupied)

/-- The mutating operations of the flat index's public interface. -/
inductive IdxOp where
  | ins (k v : Nat)
  | del (k : Nat)

/-- Apply one index operation. -/
def idxApply (m : FlatIndexMap) : IdxOp → FlatIndexMap
  | .ins k v => (m.Insert k v).2
  | .del k => (m.Erase k).2

/-- Run a list of index operations. -/
def idxRun (m : FlatIndexMap) (ops : List IdxOp) : FlatIndexMap :=
  ops.foldl idxApply m

/-- Index states reachable from some `Init` with `max_entries` in the
range the caches use (the map's `mapped_type` is `uint32_t`, so at most
`2^32` distinct positions are representable; `FdKVCache` likewise caps
its capacity at `2^32`). -/
def IdxReachable (m : FlatIndexMap) : Prop :=
  ∃ hashf max_entries ops, max_entries ≤ 2 ^ 32 ∧
    m = idxRun (FlatIndexMap.Init hashf max_entries) ops

/-- The structural invariant of reachable index states: the table length
is `mask + 1` and at least `2 * max_entries ≥ 2`, and `size_` counts the
occupied buckets. -/
def IdxInv (m : FlatIndexMap) : Prop :=
  m.table.length = m.mask + 1 ∧
  1 ≤ m.max_entries ∧
  2 * m.max_entries ≤ m.table.length ∧
  m.size = countOccEntries m.table

end detail

namespace FdKVCache

/-- Number of occupied slots. -/
def countOccSlots (slots : List Slot) : Nat :=
  slots.countP (fun sl => sl.occupied)

/-- The mutating operations of the single-owner cache's public
interface.  The `uint8_t` type argument and the `uint64_t` handle are
truncated at the call boundary, as in C++. -/
inductive CacheOp where
  | ins (t k v : Nat)
  | upsert (t k v : Nat)
  | del (h : Nat)

/-- Apply one cache operation. -/
def applyOp (s : FdKVCache) : CacheOp → FdKVCache
  | .ins t k v => (s.Insert (t % 2 ^ 8) k v).2
  | .upsert t k v => (s.InsertOrAssign (t % 2 ^ 8) k v).2
  | .del h => (s.Erase (h % 2 ^ 64)).2

/-- Run a list of cache operations. -/
def run (s : FdKVCache) (ops : List CacheOp) : FdKVCache :=
  ops.foldl applyOp s

/-- Cache states reachable from a fresh cache of capacity at most
`2^32` (positions are `uint32_t`). -/
def CacheReachable (s : FdKVCache) : Prop :=
  ∃ hashf n ops, n ≤ 2 ^ 32 ∧ s = run (Reserve hashf n) ops

/-- The structural invariant of reachable cache states. -/
def CacheInv (s : FdKVCache) : Prop :=
  s.key_to_position.table.length = s.key_to_position.mask + 1 ∧
  (∀ e ∈ s.key_to_position.table, e.state = .occupied →
    e.value < s.slots.length) ∧
  (∀ sl ∈ s.slots, 1 ≤ sl.generation ∧ sl.generation ≤ kMaxGeneration ∧
    sl.type < 2 ^ 8) ∧
  (∀ p ∈ s.free_positions, p < s.slots.length ∧ p < s.next_unused ∧
    (s.slotAt p).occupied = false) ∧
  s.free_positions.Nodup ∧
  (∀ p, p < s.slots.length → s.next_unused ≤ p →
    (s.slotAt p).occupied = false) ∧
  s.next_unused ≤ s.slots.length ∧
  s.size = countOccSlots s.slots ∧
  1 ≤ s.slots.length ∧ s.slots.length ≤ 2 ^ 32

instance (s : FdKVCache) : Decidable (CacheInv s) := by
  unfold CacheInv
  infer_instance

/-- The generation counter of slot `p`. -/
def slotGen (s : FdKVCache) (p : Nat) : Nat :=
  (s.slotAt p).generation

/-- How many `Erase` calls of a trace target position `p` (an upper
bound for the number of generation bumps at `p`). -/
def countDelAt (p : Nat) (ops : List CacheOp) : Nat :=
  ops.countP (fun op => match op with
    | .del h => FdToken.Position (h % 2 ^ 64) == p
    | _ => false)

end FdKVCache

namespace FdKVCache

/-- A capacity-1 cache (identity hash, key 0) whose single slot has just
been erased at generation `g`: the shape the generation-wrap trace
cycles through. -/
def wrapFree (g v : Nat) : FdKVCache :=
  { slots := [⟨0, v, g, 0, false⟩], free_positions := [0],
    key_to_position := { hashf := id, table := [⟨0, 0, .deleted⟩, ⟨0, 0, .empty⟩], mask := 1, max_entries := 1, size := 0, tombstones := 1 },
    next_unused := 1, size := 0 }

/-- One reinsert-then-erase cycle of key 0 (the erase uses the handle
`FindHandle` currently reports). -/
def cycleStep (s : FdKVCache) : FdKVCache :=
  let s1 := (s.Insert 1 0 0).2
  (s1.Erase (s1.FindHandle 0)).2

end FdKVCache

/-! ## Theorems: handle codec (claim C10) -/

theorem FdToken.make_lt (t g p : Nat) : FdToken.Make t g p < 2 ^ 64 := by
  have ht : t % 2 ^ 8 < 2 ^ 8 := Nat.mod_lt _ (by norm_num)
  have hg : g % 2 ^ 24 < 2 ^ 24 := Nat.mod_lt _ (by norm_num)
  have hp : p % 2 ^ 32 < 2 ^ 32 := Nat.mod_lt _ (by norm_num)
  unfold FdToken.Make FdToken.kTypeBits FdToken.kGenerationBits FdToken.kPositionBits
  omega

theorem FdToken.type_make (t g p : Nat) :
    FdToken.TypeOf (FdToken.Make t g p) = t % 2 ^ 8 := by
  have hg : g % 2 ^ 24 < 2 ^ 24 := Nat.mod_lt _ (by norm_num)
  have hp : p % 2 ^ 32 < 2 ^ 32 := Nat.mod_lt _ (by norm_num)
  have ht : t % 2 ^ 8 < 2 ^ 8 := Nat.mod_lt _ (by norm_num)
  unfold FdToken.TypeOf FdToken.Make FdToken.kTypeBits FdToken.kGenerationBits
    FdToken.kPositionBits
  omega

theorem FdToken.generation_make (t g p : Nat) :
    FdToken.Generation (FdToken.Make t g p) = g % 2 ^ 24 := by
  have hg : g % 2 ^ 24 < 2 ^ 24 := Nat.mod_lt _ (by norm_num)
  have hp : p % 2 ^ 32 < 2 ^ 32 := Nat.mod_lt _ (by norm_num)
  unfold FdToken.Generation FdToken.Make FdToken.kTypeBits FdToken.kGenerationBits
    FdToken.kPositionBits
  omega

theorem FdToken.position_make (t g p : Nat) :
    FdToken.Position (FdToken.Make t g p) = p % 2 ^ 32 := by
  have hp : p % 2 ^ 32 < 2 ^ 32 := Nat.mod_lt _ (by norm_num)
  unfold FdToken.Position FdToken.Make FdToken.kTypeBits FdToken.kGenerationBits
    FdToken.kPositionBits
  omega

/-- C10: the codec is total on out-of-range inputs: for `t` in the `u8`
range and arbitrary `u32` generation and position, `Type`/`Generation`/
`Position` recover `t`, `g mod 2²⁴` (out-of-range generations truncated by
masking) and `p`, and `Make t g p` is the null handle iff `t = 0`,
`g mod 2²⁴ = 0` and `p = 0`. -/
theorem C10_handle_codec_totality (t g p : Nat)
    (ht : t < 2 ^ 8) (_hg : g < 2 ^ 32) (hp : p < 2 ^ 32) :
    FdToken.TypeOf (FdToken.Make t g p) = t ∧
    FdToken.Generation (FdToken.Make t g p) = g % 2 ^ 24 ∧
    FdToken.Position (FdToken.Make t g p) = p ∧
    (FdToken.Make t g p = FdToken.kNull ↔ t = 0 ∧ g % 2 ^ 24 = 0 ∧ p = 0) := by
  refine ⟨?_, FdToken.generation_make t g p, ?_, ?_⟩
  · rw [FdToken.type_make, Nat.mod_eq_of_lt ht]
  · rw [FdToken.position_make, Nat.mod_eq_of_lt hp]
  · have hg24 : g % 2 ^ 24 < 2 ^ 24 := Nat.mod_lt _ (by norm_num)
    unfold FdToken.Make FdToken.kNull FdToken.kTypeBits FdToken.kGenerationBits
      FdToken.kPositionBits
    rw [Nat.mod_eq_of_lt ht, Nat.mod_eq_of_lt hp]
    omega

/-- Witness for C10 at `t = 3`, `g = 2^24 + 5`, `p = 7`. -/
theorem C10_handle_codec_totality_witness :
    FdToken.TypeOf (FdToken.Make 3 (2 ^ 24 + 5) 7) = 3 ∧
    FdToken.Generation (FdToken.Make 3 (2 ^ 24 + 5) 7) = (2 ^ 24 + 5) % 2 ^ 24 ∧
    FdToken.Position (FdToken.Make 3 (2 ^ 24 + 5) 7) = 7 ∧
    (FdToken.Make 3 (2 ^ 24 + 5) 7 = FdToken.kNull ↔
      3 = 0 ∧ (2 ^ 24 + 5) % 2 ^ 24 = 0 ∧ 7 = 0) :=
  C10_handle_codec_totality 3 (2 ^ 24 + 5) 7 (by norm_num) (by norm_num) (by norm_num)

/-! ## Theorems: sharded-cache construction (claim C9) -/

/-- C9 counterexample (`size_t` overflow): with shard count 2 and
`reserve_hint = 2⁶⁴ − 1`, the `size_t` sum `total + shard_count - 1`
wraps to 0 and the `per_shard == 0` guard substitutes 1, so the code
returns per-shard capacity 1 — not the claimed
`min(ceil(reserve_hint / shard_count), 2²⁴) = 2²⁴`. -/
theorem C9_sharded_construction_counterexample :
    ShardedFdKVCache.ComputePerShardCapacity
      (ShardedFdKVCache.NormalizeShardCount 2) (2 ^ 64 - 1) = 1 ∧
    min ((2 ^ 64 - 1 + ShardedFdKVCache.NormalizeShardCount 2 - 1) /
        ShardedFdKVCache.NormalizeShardCount 2) (2 ^ 24) = 2 ^ 24 :=
  ⟨by decide, by decide⟩

/-- C9 amended: the effective shard count is `shard_count` clamped to
`[1, 256]` (`0` mapped to `1`) for every input; and whenever
`reserve_hint` is small enough that the `size_t` sum
`total + shard_count - 1` cannot wrap modulo `2⁶⁴`
(`reserve_hint ≤ 2⁶⁴ − 2⁸` suffices for every normalized shard count),
the per-shard capacity is `min (ceil (total / shards)) 2²⁴` — at least 1
— where `total` defaults to `32768 = 2¹⁵` when `reserve_hint = 0`.  For
larger `reserve_hint` the sum wraps and the code returns 1 instead (see
the counterexample). -/
theorem C9_sharded_construction_amended (shard_count reserve_hint : Nat)
    (hno : reserve_hint ≤ 2 ^ 64 - 2 ^ 8) :
    ShardedFdKVCache.NormalizeShardCount shard_count =
      max 1 (min shard_count 256) ∧
    (ShardedFdKVCache.ComputePerShardCapacity
        (ShardedFdKVCache.NormalizeShardCount shard_count) reserve_hint =
      min (((if reserve_hint = 0 then 2 ^ 15 else reserve_hint) +
              ShardedFdKVCache.NormalizeShardCount shard_count - 1) /
            ShardedFdKVCache.NormalizeShardCount shard_count)
        (2 ^ 24)) ∧
    1 ≤ ShardedFdKVCache.ComputePerShardCapacity
        (ShardedFdKVCache.NormalizeShardCount shard_count) reserve_hint := by
  have hns :
      ShardedFdKVCache.NormalizeShardCount shard_count =
        max 1 (min shard_count 256) := by
    unfold ShardedFdKVCache.NormalizeShardCount ShardedFdKVCache.kMaxShards
      ShardedFdKVCache.kShardBits
    split
    · omega
    · split <;> omega
  set n := ShardedFdKVCache.NormalizeShardCount shard_count with hn
  have hn1 : 1 ≤ n := by rw [show n = 1 ⊔ shard_count ⊓ 256 from hns]; omega
  have hn256 : n ≤ 256 := by
    rw [show n = 1 ⊔ shard_count ⊓ 256 from hns]; omega
  set total := (if reserve_hint = 0 then 2 ^ 15 else reserve_hint) with htot
  have htotal1 : 1 ≤ total := by rw [htot]; split <;> omega
  have hlt64 : total + n - 1 < 2 ^ 64 := by
    rw [htot]
    split <;> omega
  have hmodid : (total + n - 1) % 2 ^ 64 = total + n - 1 :=
    Nat.mod_eq_of_lt hlt64
  have hper : 1 ≤ (total + n - 1) / n := (Nat.one_le_div_iff hn1).mpr (by omega)
  have hformula :
      ShardedFdKVCache.ComputePerShardCapacity n reserve_hint =
        min ((total + n - 1) / n) (2 ^ 24) := by
    unfold ShardedFdKVCache.ComputePerShardCapacity ShardedFdKVCache.kLocalMask
      ShardedFdKVCache.kLocalBits ShardedFdKVCache.kShardBits FdToken.kPositionBits
    rw [← htot]
    simp only [hmodid]
    have hzero : ¬ ((total + n - 1) / n = 0) := by omega
    simp only [hzero, if_false]
    have h24 : (2 : Nat) ^ (32 - 8) - 1 + 1 = 2 ^ 24 := by norm_num
    rw [h24]
    split
    · next h => rw [Nat.min_eq_right (by omega)]
    · next h => rw [Nat.min_eq_left (by omega)]
  refine ⟨hns, hformula, ?_⟩
  rw [hformula]
  have : (1 : Nat) ≤ 2 ^ 24 := by norm_num
  omega

/-- Witness for C9 amended: shard count 8 with reserve hint 100 — no
overflow, so the per-shard capacity is `min (ceil (100 / 8)) 2²⁴ = 13`. -/
theorem C9_sharded_construction_amended_witness :
    ShardedFdKVCache.NormalizeShardCount 8 = max 1 (min 8 256) ∧
    (ShardedFdKVCache.ComputePerShardCapacity
        (ShardedFdKVCache.NormalizeShardCount 8) 100 =
      min (((if (100 : Nat) = 0 then 2 ^ 15 else 100) +
              ShardedFdKVCache.NormalizeShardCount 8 - 1) /
            ShardedFdKVCache.NormalizeShardCount 8)
        (2 ^ 24)) ∧
    1 ≤ ShardedFdKVCache.ComputePerShardCapacity
        (ShardedFdKVCache.NormalizeShardCount 8) 100 :=
  C9_sharded_construction_amended 8 100 (by decide)

/-! ## Theorems: concrete single-owner trace (claim C3) -/

/-- C3: on a fresh single-owner cache of capacity 4 (identity hash),
`insert(1, 10, 100)` returns `H1` with position 0 and generation 1;
`get(H1) = 100`; `erase(H1)` is true; `get(H1)` is then null;
`insert(1, 10, 200)` returns `H2` with position 0 and generation 2;
`H2 ≠ H1`; and `get(H2) = 200`. -/
theorem C3_concrete_trace :
    FdToken.Position (((FdKVCache.Reserve id 4).Insert 1 10 100).1) = 0 ∧
    FdToken.Generation (((FdKVCache.Reserve id 4).Insert 1 10 100).1) = 1 ∧
    ((FdKVCache.Reserve id 4).Insert 1 10 100).2.Get
      (((FdKVCache.Reserve id 4).Insert 1 10 100).1) = some 100 ∧
    (((FdKVCache.Reserve id 4).Insert 1 10 100).2.Erase
      (((FdKVCache.Reserve id 4).Insert 1 10 100).1)).1 = true ∧
    (((FdKVCache.Reserve id 4).Insert 1 10 100).2.Erase
      (((FdKVCache.Reserve id 4).Insert 1 10 100).1)).2.Get
      (((FdKVCache.Reserve id 4).Insert 1 10 100).1) = none ∧
    FdToken.Position
      (((((FdKVCache.Reserve id 4).Insert 1 10 100).2.Erase
        (((FdKVCache.Reserve id 4).Insert 1 10 100).1)).2.Insert
        1 10 200).1) = 0 ∧
    FdToken.Generation
      (((((FdKVCache.Reserve id 4).Insert 1 10 100).2.Erase
        (((FdKVCache.Reserve id 4).Insert 1 10 100).1)).2.Insert
        1 10 200).1) = 2 ∧
    ((((FdKVCache.Reserve id 4).Insert 1 10 100).2.Erase
        (((FdKVCache.Reserve id 4).Insert 1 10 100).1)).2.Insert
        1 10 200).1 ≠ ((FdKVCache.Reserve id 4).Insert 1 10 100).1 ∧
    ((((FdKVCache.Reserve id 4).Insert 1 10 100).2.Erase
        (((FdKVCache.Reserve id 4).Insert 1 10 100).1)).2.Insert
        1 10 200).2.Get
      (((((FdKVCache.Reserve id 4).Insert 1 10 100).2.Erase
        (((FdKVCache.Reserve id 4).Insert 1 10 100).1)).2.Insert
        1 10 200).1) = some 200 := by
  decide


/-! ## Flat index probe lemmas -/

namespace detail
namespace FlatIndexMap

theorem path_shift (m : FlatIndexMap) (idx s : Nat) :
    (m.NextIndex idx + s) % (m.mask + 1) = (idx + (s + 1)) % (m.mask + 1) := by
  unfold NextIndex
  rw [Nat.mod_add_mod]
  congr 1
  omega

theorem findLoop_eq_some (m : FlatIndexMap) (key v : Nat) (fuel : Nat) :
    ∀ idx t, idx < m.mask + 1 → t < fuel →
      (m.cell ((idx + t) % (m.mask + 1))).state = .occupied →
      (m.cell ((idx + t) % (m.mask + 1))).key = key →
      (m.cell ((idx + t) % (m.mask + 1))).value = v →
      (∀ s, s < t →
        (m.cell ((idx + s) % (m.mask + 1))).state ≠ .empty ∧
        ((m.cell ((idx + s) % (m.mask + 1))).state = .occupied →
          (m.cell ((idx + s) % (m.mask + 1))).key = key →
          (m.cell ((idx + s) % (m.mask + 1))).value = v)) →
      m.findLoop key fuel idx = some v := by
  induction fuel with
  | zero => intro idx t _ ht _ _ _ _; omega
  | succ fuel ih =>
    intro idx t hidx ht hst hk hv hpre
    have hL : 0 < m.mask + 1 := Nat.succ_pos _
    have hidx0 : (idx + 0) % (m.mask + 1) = idx := by
      rw [Nat.add_zero, Nat.mod_eq_of_lt hidx]
    simp only [findLoop]
    rcases Nat.eq_zero_or_pos t with rfl | htpos
    · rw [hidx0] at hst hk hv
      rw [if_neg (by rw [hst]; exact fun hcon => nomatch hcon)]
      rw [if_pos ⟨hst, hk⟩, hv]
    · obtain ⟨u, rfl⟩ : ∃ u, t = u + 1 := ⟨t - 1, by omega⟩
      have h0 := hpre 0 (by omega)
      rw [hidx0] at h0
      by_cases hocc : (m.cell idx).state = .occupied ∧ (m.cell idx).key = key
      · rw [if_neg h0.1, if_pos hocc, h0.2 hocc.1 hocc.2]
      · rw [if_neg h0.1, if_neg hocc]
        refine ih (m.NextIndex idx) u (Nat.mod_lt _ hL) (by omega) ?_ ?_ ?_ ?_
        · rw [path_shift]; exact hst
        · rw [path_shift]; exact hk
        · rw [path_shift]; exact hv
        · intro s hs
          rw [path_shift]
          exact hpre (s + 1) (by omega)

theorem findLoop_eq_none (m : FlatIndexMap) (key : Nat) (fuel : Nat) :
    ∀ idx, m.findLoop key fuel idx = none →
      ∀ t, t < fuel →
        (∀ s, s < t → (m.cell ((idx + s) % (m.mask + 1))).state ≠ .empty) →
        idx < m.mask + 1 →
        ¬((m.cell ((idx + t) % (m.mask + 1))).state = .occupied ∧
          (m.cell ((idx + t) % (m.mask + 1))).key = key) := by
  induction fuel with
  | zero => intro idx _ t ht; omega
  | succ fuel ih =>
    intro idx hnone t ht hne hidx
    have hL : 0 < m.mask + 1 := Nat.succ_pos _
    have hidx0 : (idx + 0) % (m.mask + 1) = idx := by
      rw [Nat.add_zero, Nat.mod_eq_of_lt hidx]
    simp only [findLoop] at hnone
    rcases Nat.eq_zero_or_pos t with rfl | htpos
    · rw [hidx0]
      intro hocc
      rw [if_neg (by rw [hocc.1]; exact fun hcon => nomatch hcon), if_pos hocc]
        at hnone
      exact nomatch hnone
    · obtain ⟨u, rfl⟩ : ∃ u, t = u + 1 := ⟨t - 1, by omega⟩
      have h0 : (m.cell idx).state ≠ .empty := by
        have := hne 0 (by omega)
        rwa [hidx0] at this
      rw [if_neg h0] at hnone
      by_cases hocc : (m.cell idx).state = .occupied ∧ (m.cell idx).key = key
      · rw [if_pos hocc] at hnone
        exact nomatch hnone
      · rw [if_neg hocc] at hnone
        rw [show (idx + (u + 1)) % (m.mask + 1) =
          (m.NextIndex idx + u) % (m.mask + 1) from (path_shift m idx u).symm]
        refine ih (m.NextIndex idx) hnone u (by omega) ?_ (Nat.mod_lt _ hL)
        intro s hs
        rw [path_shift]
        exact hne (s + 1) (by omega)

theorem InsertAt_not_occupied_true (m : FlatIndexMap) (j key v : Nat)
    (hj : (m.cell j).state ≠ .occupied) (hcan : m.CanInsertNew = true) :
    m.InsertAt j key v =
      (true,
        { m with
          table := m.table.set j ⟨key, v, .occupied⟩,
          size := m.size + 1,
          tombstones := if (m.cell j).state = .deleted then m.tombstones - 1
            else m.tombstones }) := by
  unfold InsertAt
  rw [if_neg hj, hcan]
  simp

theorem InsertAt_not_occupied_false (m : FlatIndexMap) (j key v : Nat)
    (hj : (m.cell j).state ≠ .occupied) (hcan : m.CanInsertNew = false) :
    m.InsertAt j key v = (false, m) := by
  unfold InsertAt
  rw [if_neg hj, hcan]
  simp

theorem insertLoop_true_char (m : FlatIndexMap) (key v : Nat) (fuel : Nat) :
    ∀ idx fd (out : Bool × FlatIndexMap), idx < m.mask + 1 →
      (∀ j, fd = some j → j < m.mask + 1 ∧ (m.cell j).state = .deleted) →
      m.insertLoop key v fuel idx fd = out → out.1 = true →
      ∃ j e',
        out.2.hashf = m.hashf ∧
        out.2.mask = m.mask ∧
        out.2.max_entries = m.max_entries ∧
        out.2.table = m.table.set j e' ∧
        e'.state = .occupied ∧ e'.key = key ∧ e'.value = v ∧
        j < m.mask + 1 ∧
        ((out.2.size = m.size + 1 ∧ (m.cell j).state ≠ .occupied ∧
            m.CanInsertNew = true) ∨
          (out.2.size = m.size ∧ (m.cell j).state = .occupied ∧
            (m.cell j).key = key)) ∧
        (fd = some j ∨
          ∃ t, t < fuel ∧ (idx + t) % (m.mask + 1) = j ∧
            ∀ s, s < t →
              (m.cell ((idx + s) % (m.mask + 1))).state ≠ .empty ∧
              ¬((m.cell ((idx + s) % (m.mask + 1))).state = .occupied ∧
                (m.cell ((idx + s) % (m.mask + 1))).key = key)) := by
  induction fuel with
  | zero =>
    intro idx fd out hidx hfd heq htrue
    cases fd with
    | none =>
      simp only [insertLoop] at heq
      subst heq
      exact nomatch htrue
    | some j =>
      simp only [insertLoop] at heq
      obtain ⟨hj1, hj2⟩ := hfd j rfl
      have hnotocc : (m.cell j).state ≠ .occupied := by
        rw [hj2]; exact fun h => nomatch h
      cases hcan : m.CanInsertNew with
      | false =>
        rw [InsertAt_not_occupied_false m j key v hnotocc hcan] at heq
        subst heq
        exact nomatch htrue
      | true =>
        rw [InsertAt_not_occupied_true m j key v hnotocc hcan] at heq
        subst heq
        exact ⟨j, ⟨key, v, .occupied⟩, rfl, rfl, rfl, rfl, rfl, rfl, rfl, hj1,
          Or.inl ⟨rfl, hnotocc, rfl⟩, Or.inl rfl⟩
  | succ fuel ih =>
    intro idx fd out hidx hfd heq htrue
    have hL : 0 < m.mask + 1 := Nat.succ_pos _
    have hidx0 : (idx + 0) % (m.mask + 1) = idx := by
      rw [Nat.add_zero, Nat.mod_eq_of_lt hidx]
    simp only [insertLoop] at heq
    by_cases hemp : (m.cell idx).state = .empty
    · rw [if_pos hemp] at heq
      cases fd with
      | none =>
        simp only [Option.getD_none] at heq
        have hnotocc : (m.cell idx).state ≠ .occupied := by
          rw [hemp]; exact fun h => nomatch h
        cases hcan : m.CanInsertNew with
        | false =>
          rw [InsertAt_not_occupied_false m idx key v hnotocc hcan] at heq
          subst heq
          exact nomatch htrue
        | true =>
          rw [InsertAt_not_occupied_true m idx key v hnotocc hcan] at heq
          subst heq
          refine ⟨idx, ⟨key, v, .occupied⟩, rfl, rfl, rfl, rfl, rfl, rfl, rfl,
            hidx, Or.inl ⟨rfl, hnotocc, rfl⟩, Or.inr ⟨0, by omega, hidx0, ?_⟩⟩
          intro s hs
          omega
      | some j =>
        simp only [Option.getD_some] at heq
        obtain ⟨hj1, hj2⟩ := hfd j rfl
        have hnotocc : (m.cell j).state ≠ .occupied := by
          rw [hj2]; exact fun h => nomatch h
        cases hcan : m.CanInsertNew with
        | false =>
          rw [InsertAt_not_occupied_false m j key v hnotocc hcan] at heq
          subst heq
          exact nomatch htrue
        | true =>
          rw [InsertAt_not_occupied_true m j key v hnotocc hcan] at heq
          subst heq
          exact ⟨j, ⟨key, v, .occupied⟩, rfl, rfl, rfl, rfl, rfl, rfl, rfl, hj1,
            Or.inl ⟨rfl, hnotocc, rfl⟩, Or.inl rfl⟩
    · rw [if_neg hemp] at heq
      by_cases hdel : (m.cell idx).state = .deleted
      · rw [if_pos hdel] at heq
        have hfd' : ∀ j,
            (if fd.isSome then fd else some idx) = some j →
            j < m.mask + 1 ∧ (m.cell j).state = .deleted := by
          intro j hj
          cases fd with
          | none =>
            simp only [Option.isSome_none, Bool.false_eq_true, if_false] at hj
            cases hj
            exact ⟨hidx, hdel⟩
          | some j0 =>
            simp only [Option.isSome_some, if_true] at hj
            exact hfd j hj
        obtain ⟨j, e', h1, h2, h3, h4, h5, h6, h7, h8, h9, h10⟩ :=
          ih (m.NextIndex idx) _ out (Nat.mod_lt _ hL) hfd' heq htrue
        refine ⟨j, e', h1, h2, h3, h4, h5, h6, h7, h8, h9, ?_⟩
        rcases h10 with hfdj | ⟨t, ht, hpt, hpre⟩
        · cases fd with
          | none =>
            simp only [Option.isSome_none, Bool.false_eq_true, if_false] at hfdj
            cases hfdj
            refine Or.inr ⟨0, by omega, hidx0, ?_⟩
            intro s hs
            omega
          | some j0 =>
            simp only [Option.isSome_some, if_true] at hfdj
            exact Or.inl hfdj
        · refine Or.inr ⟨t + 1, by omega, ?_, ?_⟩
          · rw [← path_shift]; exact hpt
          · intro s hs
            rcases Nat.eq_zero_or_pos s with rfl | hspos
            · rw [hidx0]
              refine ⟨hemp, ?_⟩
              intro hocc
              rw [hocc.1] at hdel
              exact nomatch hdel
            · obtain ⟨u, rfl⟩ : ∃ u, s = u + 1 := ⟨s - 1, by omega⟩
              rw [← path_shift]
              exact hpre u (by omega)
      · rw [if_neg hdel] at heq
        have hocc : (m.cell idx).state = .occupied := by
          cases h : (m.cell idx).state
          · exact absurd h hemp
          · rfl
          · exact absurd h hdel
        by_cases hkey : (m.cell idx).key = key
        · rw [if_pos hkey] at heq
          subst heq
          refine ⟨idx, { m.cell idx with value := v }, rfl, rfl, rfl, rfl,
            hocc, hkey, rfl, hidx, Or.inr ⟨rfl, hocc, hkey⟩,
            Or.inr ⟨0, by omega, hidx0, ?_⟩⟩
          intro s hs
          omega
        · rw [if_neg hkey] at heq
          obtain ⟨j, e', h1, h2, h3, h4, h5, h6, h7, h8, h9, h10⟩ :=
            ih (m.NextIndex idx) fd out (Nat.mod_lt _ hL) hfd heq htrue
          refine ⟨j, e', h1, h2, h3, h4, h5, h6, h7, h8, h9, ?_⟩
          rcases h10 with hfdj | ⟨t, ht, hpt, hpre⟩
          · exact Or.inl hfdj
          · refine Or.inr ⟨t + 1, by omega, ?_, ?_⟩
            · rw [← path_shift]; exact hpt
            · intro s hs
              rcases Nat.eq_zero_or_pos s with rfl | hspos
              · rw [hidx0]
                exact ⟨hemp, fun hc => hkey hc.2⟩
              · obtain ⟨u, rfl⟩ : ∃ u, s = u + 1 := ⟨s - 1, by omega⟩
                rw [← path_shift]
                exact hpre u (by omega)

theorem Find_insert (m m' : FlatIndexMap) (key v : Nat)
    (hal : m.table.length = m.mask + 1)
    (h : m.Insert key v = (true, m')) :
    m'.Find key = some v := by
  unfold Insert at h
  by_cases hne : m.table.isEmpty
  · rw [if_pos hne] at h
    exact nomatch (congrArg Prod.fst h)
  · rw [if_neg hne] at h
    have hL : 0 < m.mask + 1 := Nat.succ_pos _
    have hstart : m.ProbeStart key < m.mask + 1 := Nat.mod_lt _ hL
    obtain ⟨j, e', h1, h2, h3, h4, h5, h6, h7, h8, _h9, h10⟩ :=
      insertLoop_true_char m key v m.table.length (m.ProbeStart key) none
        (true, m') hstart (fun j hj => nomatch hj) h rfl
    rcases h10 with hcontra | ⟨t, ht, hpt, hpre⟩
    · exact nomatch hcontra
    have hjlen : j < m.table.length := by omega
    have hlen' : m'.table.length = m.table.length := by
      rw [h4, List.length_set]
    have hcell : ∀ i, i < m.table.length →
        m'.cell i = if i = j then e' else m.cell i := by
      intro i hi
      show m'.table.getD i default = _
      rw [h4, List.getD_eq_getElem?_getD]
      by_cases hij : i = j
      · subst hij
        rw [List.getElem?_set_self hi, if_pos rfl]
        rfl
      · rw [List.getElem?_set_ne (fun hji => hij hji.symm), if_neg hij,
          ← List.getD_eq_getElem?_getD]
        rfl
    unfold Find
    have hne' : ¬ m'.table.isEmpty = true := by
      rw [List.isEmpty_iff_length_eq_zero, hlen']
      rw [List.isEmpty_iff_length_eq_zero] at hne
      exact hne
    rw [if_neg hne']
    have hps : m'.ProbeStart key = m.ProbeStart key := by
      unfold ProbeStart
      rw [h1, h2]
    rw [hps, hlen']
    have hLe : m'.mask + 1 = m.mask + 1 := by rw [h2]
    apply findLoop_eq_some m' key v m.table.length (m.ProbeStart key) t
      (by rw [hLe]; exact hstart) ht
    · rw [hLe, hpt, hcell j hjlen, if_pos rfl]; exact h5
    · rw [hLe, hpt, hcell j hjlen, if_pos rfl]; exact h6
    · rw [hLe, hpt, hcell j hjlen, if_pos rfl]; exact h7
    · intro s hs
      have hi : (m.ProbeStart key + s) % (m.mask + 1) < m.table.length := by
        rw [hal]; exact Nat.mod_lt _ hL
      rw [hLe, hcell _ hi]
      by_cases hij : (m.ProbeStart key + s) % (m.mask + 1) = j
      · rw [if_pos hij]
        refine ⟨(by rw [h5]; exact fun hc => nomatch hc), fun _ _ => h7⟩
      · rw [if_neg hij]
        obtain ⟨hp1, hp2⟩ := hpre s hs
        exact ⟨hp1, fun ho hk => absurd ⟨ho, hk⟩ hp2⟩

theorem InsertAt_snd_of_false (m : FlatIndexMap) (j key v : Nat)
    (out : Bool × FlatIndexMap) (heq : m.InsertAt j key v = out)
    (hfalse : out.1 = false) : out.2 = m ∧ m.CanInsertNew = false := by
  unfold InsertAt at heq
  by_cases hocc : (m.cell j).state = .occupied
  · rw [if_pos hocc] at heq
    subst heq
    exact nomatch hfalse
  · rw [if_neg hocc] at heq
    by_cases hcan : m.CanInsertNew = false
    · rw [if_pos hcan] at heq
      subst heq
      exact ⟨rfl, hcan⟩
    · rw [if_neg hcan] at heq
      subst heq
      exact nomatch hfalse

theorem insertLoop_false_unchanged (m : FlatIndexMap) (key v : Nat)
    (fuel : Nat) :
    ∀ idx fd (out : Bool × FlatIndexMap),
      m.insertLoop key v fuel idx fd = out → out.1 = false → out.2 = m := by
  induction fuel with
  | zero =>
    intro idx fd out heq hfalse
    cases fd with
    | none =>
      simp only [insertLoop] at heq
      subst heq
      rfl
    | some j =>
      simp only [insertLoop] at heq
      exact (InsertAt_snd_of_false m j key v out heq hfalse).1
  | succ fuel ih =>
    intro idx fd out heq hfalse
    simp only [insertLoop] at heq
    by_cases hemp : (m.cell idx).state = .empty
    · rw [if_pos hemp] at heq
      exact (InsertAt_snd_of_false m _ key v out heq hfalse).1
    · rw [if_neg hemp] at heq
      by_cases hdel : (m.cell idx).state = .deleted
      · rw [if_pos hdel] at heq
        exact ih _ _ out heq hfalse
      · rw [if_neg hdel] at heq
        by_cases hkey : (m.cell idx).key = key
        · rw [if_pos hkey] at heq
          subst heq
          exact nomatch hfalse
        · rw [if_neg hkey] at heq
          exact ih _ _ out heq hfalse

theorem Insert_snd_of_false (m : FlatIndexMap) (key v : Nat)
    (hfalse : (m.Insert key v).1 = false) : (m.Insert key v).2 = m := by
  unfold Insert at hfalse ⊢
  by_cases hne : m.table.isEmpty
  · rw [if_pos hne]
  · rw [if_neg hne] at hfalse ⊢
    exact insertLoop_false_unchanged m key v m.table.length _ _ _ rfl hfalse

theorem insertLoop_false_occupied (m : FlatIndexMap) (key v : Nat)
    (hcan : m.CanInsertNew = true) (fuel : Nat) :
    ∀ idx fd, idx < m.mask + 1 →
      (∀ j, fd = some j → (m.cell j).state ≠ .occupied) →
      (m.insertLoop key v fuel idx fd).1 = false →
      fd = none ∧ ∀ s, s < fuel →
        (m.cell ((idx + s) % (m.mask + 1))).state = .occupied := by
  induction fuel with
  | zero =>
    intro idx fd hidx hfd hfalse
    cases fd with
    | none => exact ⟨rfl, fun s hs => absurd hs (by omega)⟩
    | some j =>
      simp only [insertLoop] at hfalse
      rw [InsertAt_not_occupied_true m j key v (hfd j rfl) hcan] at hfalse
      exact nomatch hfalse
  | succ fuel ih =>
    intro idx fd hidx hfd hfalse
    have hL : 0 < m.mask + 1 := Nat.succ_pos _
    have hidx0 : (idx + 0) % (m.mask + 1) = idx := by
      rw [Nat.add_zero, Nat.mod_eq_of_lt hidx]
    simp only [insertLoop] at hfalse
    by_cases hemp : (m.cell idx).state = .empty
    · rw [if_pos hemp] at hfalse
      have hne : (m.cell (fd.getD idx)).state ≠ .occupied := by
        cases fd with
        | none =>
          simp only [Option.getD_none]
          rw [hemp]
          exact fun h => nomatch h
        | some j => exact hfd j rfl
      rw [InsertAt_not_occupied_true m _ key v hne hcan] at hfalse
      exact nomatch hfalse
    · rw [if_neg hemp] at hfalse
      by_cases hdel : (m.cell idx).state = .deleted
      · rw [if_pos hdel] at hfalse
        have hfd' : ∀ j, (if fd.isSome then fd else some idx) = some j →
            (m.cell j).state ≠ .occupied := by
          intro j hj
          cases fd with
          | none =>
            simp only [Option.isSome_none, Bool.false_eq_true, if_false] at hj
            cases hj
            rw [hdel]
            exact fun h => nomatch h
          | some j0 =>
            simp only [Option.isSome_some, if_true] at hj
            exact hfd j hj
        obtain ⟨hfdnone, _⟩ := ih _ _ (Nat.mod_lt _ hL) hfd' hfalse
        cases fd with
        | none =>
          simp only [Option.isSome_none, Bool.false_eq_true, if_false] at hfdnone
          exact nomatch hfdnone
        | some j0 =>
          simp only [Option.isSome_some, if_true] at hfdnone
          exact nomatch hfdnone
      · rw [if_neg hdel] at hfalse
        have hocc : (m.cell idx).state = .occupied := by
          cases h : (m.cell idx).state
          · exact absurd h hemp
          · rfl
          · exact absurd h hdel
        by_cases hkey : (m.cell idx).key = key
        · rw [if_pos hkey] at hfalse
          exact nomatch hfalse
        · rw [if_neg hkey] at hfalse
          obtain ⟨hfdnone, hall⟩ := ih _ _ (Nat.mod_lt _ hL) hfd hfalse
          refine ⟨hfdnone, ?_⟩
          intro s hs
          rcases Nat.eq_zero_or_pos s with rfl | hspos
          · rw [hidx0]
            exact hocc
          · obtain ⟨u, rfl⟩ : ∃ u, s = u + 1 := ⟨s - 1, by omega⟩
            rw [← path_shift]
            exact hall u (by omega)

theorem eraseLoop_char (m : FlatIndexMap) (key : Nat) (fuel : Nat) :
    ∀ idx (out : Bool × FlatIndexMap), idx < m.mask + 1 →
      m.eraseLoop key fuel idx = out →
      (out.1 = false ∧ out.2 = m) ∨
      (out.1 = true ∧ ∃ j, j < m.mask + 1 ∧
        (m.cell j).state = .occupied ∧ (m.cell j).key = key ∧
        out.2 = { m with
          table := m.table.set j { m.cell j with state := .deleted },
          size := m.size - 1, tombstones := m.tombstones + 1 }) := by
  induction fuel with
  | zero =>
    intro idx out _ heq
    simp only [eraseLoop] at heq
    subst heq
    exact Or.inl ⟨rfl, rfl⟩
  | succ fuel ih =>
    intro idx out hidx heq
    have hL : 0 < m.mask + 1 := Nat.succ_pos _
    simp only [eraseLoop] at heq
    by_cases hemp : (m.cell idx).state = .empty
    · rw [if_pos hemp] at heq
      subst heq
      exact Or.inl ⟨rfl, rfl⟩
    · rw [if_neg hemp] at heq
      by_cases hocc : (m.cell idx).state = .occupied ∧ (m.cell idx).key = key
      · rw [if_pos hocc] at heq
        subst heq
        exact Or.inr ⟨rfl, idx, hidx, hocc.1, hocc.2, rfl⟩
      · rw [if_neg hocc] at heq
        exact ih _ out (Nat.mod_lt _ hL) heq

theorem Erase_char (m : FlatIndexMap) (key : Nat) (out : Bool × FlatIndexMap)
    (heq : m.Erase key = out) :
    (out.1 = false ∧ out.2 = m) ∨
    (out.1 = true ∧ ∃ j, j < m.mask + 1 ∧
      (m.cell j).state = .occupied ∧ (m.cell j).key = key ∧
      out.2 = { m with
        table := m.table.set j { m.cell j with state := .deleted },
        size := m.size - 1, tombstones := m.tombstones + 1 }) := by
  unfold Erase at heq
  by_cases hne : m.table.isEmpty
  · rw [if_pos hne] at heq
    subst heq
    exact Or.inl ⟨rfl, rfl⟩
  · rw [if_neg hne] at heq
    exact eraseLoop_char m key m.table.length _ out
      (Nat.mod_lt _ (Nat.succ_pos _)) heq

theorem Insert_true_char (m : FlatIndexMap) (key v : Nat)
    (out : Bool × FlatIndexMap) (heq : m.Insert key v = out)
    (htrue : out.1 = true) :
    ∃ j e',
      out.2.hashf = m.hashf ∧
      out.2.mask = m.mask ∧
      out.2.max_entries = m.max_entries ∧
      out.2.table = m.table.set j e' ∧
      e'.state = .occupied ∧ e'.key = key ∧ e'.value = v ∧
      j < m.mask + 1 ∧
      ((out.2.size = m.size + 1 ∧ (m.cell j).state ≠ .occupied ∧
          m.CanInsertNew = true) ∨
        (out.2.size = m.size ∧ (m.cell j).state = .occupied ∧
          (m.cell j).key = key)) ∧
      (∃ t, t < m.table.length ∧
        (m.ProbeStart key + t) % (m.mask + 1) = j ∧
        ∀ s, s < t →
          (m.cell ((m.ProbeStart key + s) % (m.mask + 1))).state ≠ .empty ∧
          ¬((m.cell ((m.ProbeStart key + s) % (m.mask + 1))).state = .occupied ∧
            (m.cell ((m.ProbeStart key + s) % (m.mask + 1))).key = key)) := by
  unfold Insert at heq
  by_cases hne : m.table.isEmpty
  · rw [if_pos hne] at heq
    subst heq
    exact nomatch htrue
  · rw [if_neg hne] at heq
    obtain ⟨j, e', h1, h2, h3, h4, h5, h6, h7, h8, h9, h10⟩ :=
      insertLoop_true_char m key v m.table.length (m.ProbeStart key) none out
        (Nat.mod_lt _ (Nat.succ_pos _)) (fun j hj => nomatch hj) heq htrue
    rcases h10 with hcontra | hpath
    · exact nomatch hcontra
    · exact ⟨j, e', h1, h2, h3, h4, h5, h6, h7, h8, h9, hpath⟩

theorem findLoop_some_entry (m : FlatIndexMap) (key v : Nat) (fuel : Nat) :
    ∀ idx, m.findLoop key fuel idx = some v →
      ∃ i, (m.cell i).state = .occupied ∧ (m.cell i).key = key ∧
        (m.cell i).value = v := by
  induction fuel with
  | zero => intro idx h; exact nomatch h
  | succ fuel ih =>
    intro idx h
    simp only [findLoop] at h
    by_cases hemp : (m.cell idx).state = .empty
    · rw [if_pos hemp] at h
      exact nomatch h
    · rw [if_neg hemp] at h
      by_cases hocc : (m.cell idx).state = .occupied ∧ (m.cell idx).key = key
      · rw [if_pos hocc] at h
        exact ⟨idx, hocc.1, hocc.2, Option.some_injective _ h⟩
      · rw [if_neg hocc] at h
        exact ih _ h

theorem Find_some_entry (m : FlatIndexMap) (key v : Nat)
    (h : m.Find key = some v) :
    ∃ e ∈ m.table, e.state = .occupied ∧ e.key = key ∧ e.value = v := by
  unfold Find at h
  by_cases hne : m.table.isEmpty
  · rw [if_pos hne] at h
    exact nomatch h
  · rw [if_neg hne] at h
    obtain ⟨i, h1, h2, h3⟩ := findLoop_some_entry m key v m.table.length _ h
    have hi : i < m.table.length := by
      by_contra hge
      have : m.cell i = default := by
        show m.table.getD i default = default
        rw [List.getD_eq_getElem?_getD, List.getElem?_eq_none (by omega)]
        rfl
      rw [this] at h1
      exact nomatch h1
    refine ⟨m.cell i, ?_, h1, h2, h3⟩
    show m.table.getD i default ∈ m.table
    rw [List.getD_eq_getElem?_getD, List.getElem?_eq_getElem hi]
    exact List.getElem_mem hi

end FlatIndexMap
end detail

namespace FdKVCache

theorem AllocatePosition_success (s : FdKVCache) (hinv : CacheInv s)
    (hpos : (s.AllocatePosition).1 ≠ kInvalidPosition) :
    (s.AllocatePosition).1 < s.slots.length ∧
    (s.slotAt (s.AllocatePosition).1).occupied = false ∧
    (s.AllocatePosition).2.slots = s.slots ∧
    (s.AllocatePosition).2.key_to_position = s.key_to_position ∧
    (s.AllocatePosition).2.size = s.size := by
  obtain ⟨_, _, _, hfree, _, hpristine, _, _, _, _⟩ := hinv
  rcases hfp : s.free_positions with _ | ⟨p, rest⟩
  · have halloc : s.AllocatePosition =
        (if s.next_unused ≥ s.slots.length then (kInvalidPosition, s)
         else (s.next_unused, { s with next_unused := s.next_unused + 1 })) := by
      unfold AllocatePosition
      rw [hfp]
    by_cases hge : s.next_unused ≥ s.slots.length
    · rw [halloc, if_pos hge] at hpos
      exact absurd rfl hpos
    · rw [halloc, if_neg hge]
      have hlt : s.next_unused < s.slots.length := by omega
      exact ⟨hlt, hpristine _ hlt (Nat.le_refl _), rfl, rfl, rfl⟩
  · have halloc : s.AllocatePosition = (p, { s with free_positions := rest }) := by
      unfold AllocatePosition
      rw [hfp]
    obtain ⟨hp1, _, hp3⟩ := hfree p (by rw [hfp]; exact List.mem_cons_self p rest)
    rw [halloc]
    exact ⟨hp1, hp3, rfl, rfl, rfl⟩

theorem slotAt_mem (s : FdKVCache) (p : Nat) (hp : p < s.slots.length) :
    s.slotAt p ∈ s.slots := by
  show s.slots.getD p default ∈ s.slots
  rw [List.getD_eq_getElem?_getD, List.getElem?_eq_getElem hp]
  exact List.getElem_mem hp

theorem slotAt_set_self (l : List Slot) (p : Nat) (a : Slot)
    (hp : p < l.length) : (l.set p a).getD p default = a := by
  rw [List.getD_eq_getElem?_getD, List.getElem?_set_self hp]
  rfl

theorem slotAt_set_ne (l : List Slot) (p q : Nat) (a : Slot) (hne : p ≠ q) :
    (l.set p a).getD q default = l.getD q default := by
  rw [List.getD_eq_getElem?_getD, List.getElem?_set_ne hne,
    ← List.getD_eq_getElem?_getD]

theorem Find_pos_lt (s : FdKVCache) (k pos : Nat) (hinv : CacheInv s)
    (hfound : s.key_to_position.Find k = some pos) :
    pos < s.slots.length := by
  obtain ⟨e, hmem, hocc, _, hval⟩ :=
    detail.FlatIndexMap.Find_some_entry _ _ _ hfound
  obtain ⟨_, hentries, _⟩ := hinv
  have := hentries e hmem hocc
  omega

end FdKVCache

/-! ## Theorems: idempotent insert / upsert (claim C5) -/

/-- C5: for a key `k` already present (the flat index resolves it to
`pos`), `Insert t k v` returns the existing handle (`FindHandle k`) and
leaves the cache completely unmodified, while `InsertOrAssign t k v`
returns a handle carrying the existing entry's `(position, generation)`
and updates only the stored value and type of that slot in place. -/
theorem C5_idempotent_insert_upsert (s : FdKVCache) (t k v pos : Nat)
    (hinv : FdKVCache.CacheInv s)
    (hfound : s.key_to_position.Find k = some pos) :
    s.Insert t k v = (s.FindHandle k, s) ∧
    FdToken.Position (s.InsertOrAssign t k v).1 = pos ∧
    FdToken.Generation (s.InsertOrAssign t k v).1 =
      (s.slotAt pos).generation ∧
    (s.InsertOrAssign t k v).2.slots =
      s.slots.set pos { s.slotAt pos with value := v, type := t } ∧
    (s.InsertOrAssign t k v).2.key_to_position = s.key_to_position ∧
    (s.InsertOrAssign t k v).2.free_positions = s.free_positions ∧
    (s.InsertOrAssign t k v).2.size = s.size := by
  have hposlen : pos < s.slots.length := FdKVCache.Find_pos_lt s k pos hinv hfound
  obtain ⟨_, _, hslots, _, _, _, _, _, _, hlen32⟩ := hinv
  obtain ⟨hg1, hg2, _⟩ := hslots _ (FdKVCache.slotAt_mem s pos hposlen)
  have hupsert : s.InsertOrAssign t k v = (FdKVCache.BuildHandle { s with slots := s.slots.set pos { s.slotAt pos with value := v, type := t } } pos, { s with slots := s.slots.set pos { s.slotAt pos with value := v, type := t } }) := by
    simp only [FdKVCache.InsertOrAssign, hfound]
  have hslotAt : FdKVCache.slotAt { s with slots := s.slots.set pos { s.slotAt pos with value := v, type := t } } pos = { s.slotAt pos with value := v, type := t } := by
    show (s.slots.set pos _).getD pos default = _
    exact FdKVCache.slotAt_set_self _ _ _ hposlen
  have hhandle : FdKVCache.BuildHandle { s with slots := s.slots.set pos { s.slotAt pos with value := v, type := t } } pos = FdToken.Make t (s.slotAt pos).generation pos := by
    unfold FdKVCache.BuildHandle
    rw [hslotAt]
  have hgenmax : FdKVCache.kMaxGeneration = 2 ^ 24 - 1 := by decide
  refine ⟨?_, ?_, ?_, ?_, ?_, ?_, ?_⟩
  · simp only [FdKVCache.Insert, hfound, FdKVCache.FindHandle]
  · rw [hupsert, hhandle, FdToken.position_make, Nat.mod_eq_of_lt (by omega)]
  · rw [hupsert, hhandle, FdToken.generation_make, Nat.mod_eq_of_lt (by omega)]
  · rw [hupsert]
  · rw [hupsert]
  · rw [hupsert]
  · rw [hupsert]

/-- Witness for C5: capacity 2, `insert(1, 5, 100)`, then a repeated
insert of key 5 returns the existing handle and leaves the cache
unchanged. -/
theorem C5_idempotent_insert_upsert_witness :
    ((FdKVCache.Reserve id 2).Insert 1 5 100).2.Insert 2 5 200 =
      (((FdKVCache.Reserve id 2).Insert 1 5 100).2.FindHandle 5,
       ((FdKVCache.Reserve id 2).Insert 1 5 100).2) :=
  (C5_idempotent_insert_upsert _ 2 5 200 0 (by decide) (by decide)).1

/-! ## Validation-handle helper lemmas -/

namespace FdKVCache

theorem ValidateHandle_some_char (s : FdKVCache) (h q : Nat)
    (hv : s.ValidateHandle h = some q) :
    q = FdToken.Position h ∧ q < s.slots.length ∧
    (s.slotAt q).occupied = true ∧
    (s.slotAt q).type = FdToken.TypeOf h ∧
    (s.slotAt q).generation = FdToken.Generation h ∧
    FdToken.IsNull h = false := by
  unfold ValidateHandle at hv
  by_cases h0 : FdToken.IsNull h
  · rw [if_pos h0] at hv
    exact nomatch hv
  · rw [if_neg h0] at hv
    by_cases h1 : FdToken.Position h ≥ s.slots.length
    · rw [if_pos h1] at hv
      exact nomatch hv
    · rw [if_neg h1] at hv
      by_cases h2 : (s.slotAt (FdToken.Position h)).occupied = false
      · rw [if_pos h2] at hv
        exact nomatch hv
      · rw [if_neg h2] at hv
        by_cases h3 : (s.slotAt (FdToken.Position h)).type ≠ FdToken.TypeOf h
        · rw [if_pos h3] at hv
          exact nomatch hv
        · rw [if_neg h3] at hv
          by_cases h4 : (s.slotAt (FdToken.Position h)).generation ≠
              FdToken.Generation h
          · rw [if_pos h4] at hv
            exact nomatch hv
          · rw [if_neg h4] at hv
            have hq : q = FdToken.Position h := (Option.some_injective _ hv).symm
            refine ⟨hq, by omega, ?_, (by rw [hq]; omega), (by rw [hq]; omega), ?_⟩
            · rw [hq]
              cases hb : (s.slotAt (FdToken.Position h)).occupied
              · exact absurd hb h2
              · rfl
            · cases hb : FdToken.IsNull h
              · rfl
              · exact absurd hb h0

theorem ValidateHandle_eq_some (s : FdKVCache) (h : Nat)
    (hnull : ¬ FdToken.IsNull h = true)
    (hlt : FdToken.Position h < s.slots.length)
    (hocc : (s.slotAt (FdToken.Position h)).occupied = true)
    (htype : (s.slotAt (FdToken.Position h)).type = FdToken.TypeOf h)
    (hgen : (s.slotAt (FdToken.Position h)).generation = FdToken.Generation h) :
    s.ValidateHandle h = some (FdToken.Position h) := by
  unfold ValidateHandle
  rw [if_neg hnull, if_neg (by omega), if_neg (by rw [hocc]; exact fun hc => nomatch hc),
    if_neg (by omega), if_neg (by omega)]

theorem ValidateHandle_congr (s s1 : FdKVCache) (h : Nat)
    (hlen : s1.slots.length = s.slots.length)
    (hslot : s1.slotAt (FdToken.Position h) = s.slotAt (FdToken.Position h)) :
    s1.ValidateHandle h = s.ValidateHandle h := by
  unfold ValidateHandle
  simp only [hlen, hslot]

theorem Get_congr (s s1 : FdKVCache) (h : Nat)
    (hlen : s1.slots.length = s.slots.length)
    (hslot : s1.slotAt (FdToken.Position h) = s.slotAt (FdToken.Position h)) :
    s1.Get h = s.Get h := by
  unfold Get
  rw [ValidateHandle_congr s s1 h hlen hslot]
  cases hv : s.ValidateHandle h with
  | none => rfl
  | some q =>
    have hq := (ValidateHandle_some_char s h q hv).1
    rw [hq]
    simp only [hslot]

end FdKVCache

namespace FdKVCache

theorem Insert_rollback_eq (s : FdKVCache) (t k v pos : Nat) (s1 : FdKVCache)
    (habs : s.key_to_position.Find k = none)
    (halloc : s.AllocatePosition = (pos, s1))
    (hpos : pos ≠ kInvalidPosition)
    (hfail : (s1.key_to_position.Insert k pos).1 = false) :
    s.Insert t k v = (FdToken.kNull,
      { s1 with
        key_to_position := (s1.key_to_position.Insert k pos).2,
        slots := (s1.slots.set pos
            ⟨k, v, (s1.slotAt pos).generation, t, true⟩).set pos
          ⟨k, v, (s1.slotAt pos).generation, t, false⟩,
        free_positions := pos :: s1.free_positions }) := by
  simp only [Insert, habs, halloc]
  rw [if_neg hpos]
  split
  · next htrue =>
      rw [hfail] at htrue
      exact nomatch htrue
  · rfl

theorem Insert_fresh_success_eq (s : FdKVCache) (t k v pos : Nat)
    (s1 : FdKVCache)
    (habs : s.key_to_position.Find k = none)
    (halloc : s.AllocatePosition = (pos, s1))
    (hpos : pos ≠ kInvalidPosition)
    (hlt : pos < s1.slots.length)
    (hsucc : (s1.key_to_position.Insert k pos).1 = true) :
    s.Insert t k v = (FdToken.Make t (s1.slotAt pos).generation pos,
      { s1 with
        key_to_position := (s1.key_to_position.Insert k pos).2,
        slots := s1.slots.set pos
          ⟨k, v, (s1.slotAt pos).generation, t, true⟩,
        size := s1.size + 1 }) := by
  have hslot : ({ s1 with key_to_position := (s1.key_to_position.Insert k pos).2, slots := s1.slots.set pos ⟨k, v, (s1.slotAt pos).generation, t, true⟩, size := s1.size + 1 } : FdKVCache).slotAt pos = ⟨k, v, (s1.slotAt pos).generation, t, true⟩ := by
    show (s1.slots.set pos _).getD pos default = _
    exact slotAt_set_self _ _ _ hlt
  simp only [Insert, habs, halloc]
  rw [if_neg hpos]
  split
  · next htrue =>
      rw [Prod.mk.injEq]
      refine ⟨?_, rfl⟩
      unfold BuildHandle
      rw [hslot]
  · next hfalse =>
      rw [hsucc] at hfalse
      exact nomatch hfalse
end FdKVCache

/-! ## Theorems: insert rollback atomicity (claim C8) -/

/-- C8: when a fresh slot has been written for an absent key and the
flat-index insert fails, `Insert` rolls back: the handle is `kNull`, the
slot's `occupied` flag is cleared, the position is pushed back onto the
freelist, `size` is unchanged (it is incremented only after both the
slot write and the index insert commit), `find_handle(k)` still returns
`kNull`, and every previously valid handle still validates to the same
position with the same stored value. -/
theorem FdKVCache.FindHandle_eq_kNull (s : FdKVCache) (k : Nat)
    (h : s.key_to_position.Find k = none) : s.FindHandle k = FdToken.kNull := by
  unfold FdKVCache.FindHandle
  rw [h]

/-- C8: when a fresh slot has been written for an absent key and the
flat-index insert fails, `Insert` rolls back: the handle is `kNull`, the
slot's `occupied` flag is cleared, the position is pushed back onto the
freelist, `size` is unchanged (it is incremented only after both the
slot write and the index insert commit), `find_handle(k)` still returns
`kNull`, and every previously valid handle still validates to the same
position with the same stored value. -/
theorem C8_insert_rollback (s : FdKVCache) (t k v : Nat)
    (hinv : FdKVCache.CacheInv s)
    (habs : s.key_to_position.Find k = none)
    (hpos : (s.AllocatePosition).1 ≠ FdKVCache.kInvalidPosition)
    (hidxfail : (s.key_to_position.Insert k (s.AllocatePosition).1).1 = false) :
    (s.Insert t k v).1 = FdToken.kNull ∧
    ((s.Insert t k v).2.slotAt (s.AllocatePosition).1).occupied = false ∧
    (s.Insert t k v).2.free_positions =
      (s.AllocatePosition).1 :: (s.AllocatePosition).2.free_positions ∧
    (s.Insert t k v).2.size = s.size ∧
    (s.Insert t k v).2.FindHandle k = FdToken.kNull ∧
    ∀ h q, s.ValidateHandle h = some q →
      (s.Insert t k v).2.ValidateHandle h = some q ∧
      (s.Insert t k v).2.Get h = s.Get h := by
  obtain ⟨hp1, hp2, hp3, hp4, hp5⟩ := FdKVCache.AllocatePosition_success s hinv hpos
  rcases halloc : s.AllocatePosition with ⟨pos, s1⟩
  rw [halloc] at hp1 hp2 hp3 hp4 hp5 hpos hidxfail
  dsimp only at hp1 hp2 hp3 hp4 hp5 hpos hidxfail
  have hfail1 : (s1.key_to_position.Insert k pos).1 = false := by
    rw [hp4]
    exact hidxfail
  have heq := FdKVCache.Insert_rollback_eq s t k v pos s1 habs halloc hpos hfail1
  have hsnd : (s1.key_to_position.Insert k pos).2 = s.key_to_position := by
    rw [hp4]
    exact detail.FlatIndexMap.Insert_snd_of_false _ _ _ hidxfail
  have hlt1 : pos < s1.slots.length := by rw [hp3]; exact hp1
  rw [heq]
  refine ⟨rfl, ?_, rfl, ?_, ?_, ?_⟩
  · show (((s1.slots.set pos (⟨k, v, (s1.slotAt pos).generation, t, true⟩ : FdKVCache.Slot)).set pos ⟨k, v, (s1.slotAt pos).generation, t, false⟩).getD pos default).occupied = false
    rw [FdKVCache.slotAt_set_self _ _ _ (by rw [List.length_set]; exact hlt1)]
  · show s1.size = s.size
    exact hp5
  · refine FdKVCache.FindHandle_eq_kNull _ k ?_
    show (s1.key_to_position.Insert k pos).2.Find k = none
    rw [hsnd]
    exact habs
  · intro h q hv
    obtain ⟨hq, hqlt, hqocc, _, _, _⟩ := FdKVCache.ValidateHandle_some_char s h q hv
    have hqpos : q ≠ pos := by
      intro hcon
      rw [hcon] at hqocc
      rw [hp2] at hqocc
      exact nomatch hqocc
    set sR : FdKVCache := { s1 with key_to_position := (s1.key_to_position.Insert k pos).2, slots := (s1.slots.set pos ⟨k, v, (s1.slotAt pos).generation, t, true⟩).set pos ⟨k, v, (s1.slotAt pos).generation, t, false⟩, free_positions := pos :: s1.free_positions } with hsR
    have hlen : sR.slots.length = s.slots.length := by
      rw [hsR]
      show ((s1.slots.set pos _).set pos _).length = s.slots.length
      rw [List.length_set, List.length_set, hp3]
    have hslot : sR.slotAt (FdToken.Position h) = s.slotAt (FdToken.Position h) := by
      rw [hsR]
      show ((s1.slots.set pos _).set pos _).getD (FdToken.Position h) default = _
      rw [FdKVCache.slotAt_set_ne _ _ _ _ (by omega),
        FdKVCache.slotAt_set_ne _ _ _ _ (by omega)]
      show s1.slots.getD (FdToken.Position h) default = _
      rw [hp3]
      rfl
    constructor
    · rw [FdKVCache.ValidateHandle_congr s sR h hlen hslot]
      exact hv
    · exact FdKVCache.Get_congr s sR h hlen hslot
/-- Witness for C8: a capacity-2 cache whose flat index is at logical
capacity (`size = max_entries = 2`) while a slot is still free, so the
index insert fails and the rollback path runs. -/
theorem C8_insert_rollback_witness :
    (({ slots := [⟨0, 0, 1, 0, true⟩, ⟨0, 0, 1, 0, false⟩], free_positions := [], key_to_position := { hashf := id, table := [⟨0, 0, .occupied⟩, ⟨5, 0, .occupied⟩, ⟨0, 0, .empty⟩, ⟨0, 0, .empty⟩], mask := 3, max_entries := 2, size := 2, tombstones := 0 }, next_unused := 1, size := 1 } : FdKVCache).Insert 7 9 42).1 = FdToken.kNull :=
  (C8_insert_rollback _ 7 9 42 (by decide) (by decide) (by decide) (by decide)).1

/-! ## Theorems: round-trip (claim C4) -/

/-- Counterexample to C4 as stated: on a fresh capacity-2 cache,
`insert(1, 5, 100)` then `insert(1, 5, 200)` succeeds (returns a
non-null handle `h`), but `get(h)` yields the previously stored `100`,
not the `200` passed to the successful insert. -/
theorem C4_round_trip_counterexample :
    ((((FdKVCache.Reserve id 2).Insert 1 5 100).2.Insert 1 5 200).1 ≠
      FdToken.kNull) ∧
    (((FdKVCache.Reserve id 2).Insert 1 5 100).2.Insert 1 5 200).2.Get
      ((((FdKVCache.Reserve id 2).Insert 1 5 100).2.Insert 1 5 200).1) ≠
      some 200 ∧
    (((FdKVCache.Reserve id 2).Insert 1 5 100).2.Insert 1 5 200).2.Get
      ((((FdKVCache.Reserve id 2).Insert 1 5 100).2.Insert 1 5 200).1) =
      some 100 := by
  decide

theorem FdKVCache.Insert_alloc_fail_eq (s : FdKVCache) (t k v : Nat)
    (habs : s.key_to_position.Find k = none)
    (hinvpos : (s.AllocatePosition).1 = FdKVCache.kInvalidPosition) :
    s.Insert t k v = (FdToken.kNull, (s.AllocatePosition).2) := by
  simp only [FdKVCache.Insert, habs]
  rw [if_pos hinvpos]

/-- C4 amended: for every successful `insert(t, k, v)` of a key **not
already present**, an immediate `get` of the returned handle yields the
just-stored `v`, and `find_handle(k)` returns exactly that handle.  (For
a key already present the insert returns the existing handle and the old
value remains — see the counterexample and C5.) -/
theorem C4_round_trip_amended (s : FdKVCache) (t k v : Nat)
    (hinv : FdKVCache.CacheInv s) (ht : t < 2 ^ 8)
    (habs : s.key_to_position.Find k = none)
    (hsucc : (s.Insert t k v).1 ≠ FdToken.kNull) :
    (s.Insert t k v).2.Get (s.Insert t k v).1 = some v ∧
    (s.Insert t k v).2.FindHandle k = (s.Insert t k v).1 := by
  by_cases hap : (s.AllocatePosition).1 = FdKVCache.kInvalidPosition
  · rw [FdKVCache.Insert_alloc_fail_eq s t k v habs hap] at hsucc
    exact absurd rfl hsucc
  · obtain ⟨hp1, hp2, hp3, hp4, hp5⟩ :=
      FdKVCache.AllocatePosition_success s hinv hap
    rcases halloc : s.AllocatePosition with ⟨pos, s1⟩
    rw [halloc] at hp1 hp2 hp3 hp4 hp5 hap
    dsimp only at hp1 hp2 hp3 hp4 hp5 hap
    obtain ⟨halign, _, hslots, _, _, _, _, _, _, hlen32⟩ := hinv
    have hlt1 : pos < s1.slots.length := by rw [hp3]; exact hp1
    cases hins : (s1.key_to_position.Insert k pos).1 with
    | false =>
      rw [FdKVCache.Insert_rollback_eq s t k v pos s1 habs halloc hap hins]
        at hsucc
      exact absurd rfl hsucc
    | true =>
      have heq := FdKVCache.Insert_fresh_success_eq s t k v pos s1 habs halloc
        hap hlt1 hins
      obtain ⟨hg1, hg2, _⟩ := hslots _ (FdKVCache.slotAt_mem s pos hp1)
      have hgen1 : (s1.slotAt pos).generation = (s.slotAt pos).generation := by
        unfold FdKVCache.slotAt
        rw [hp3]
      have hgenlo : 1 ≤ (s1.slotAt pos).generation := by rw [hgen1]; exact hg1
      have hgenhi : (s1.slotAt pos).generation < 2 ^ 24 := by
        rw [hgen1]
        have : FdKVCache.kMaxGeneration = 2 ^ 24 - 1 := by decide
        omega
      have hposlt : pos < 2 ^ 32 := by omega
      set g := (s1.slotAt pos).generation with hgdef
      set h : Nat := FdToken.Make t g pos with hhdef
      have hGen : FdToken.Generation h = g := by
        rw [hhdef, FdToken.generation_make, Nat.mod_eq_of_lt hgenhi]
      have hTy : FdToken.TypeOf h = t := by
        rw [hhdef, FdToken.type_make, Nat.mod_eq_of_lt ht]
      have hPos : FdToken.Position h = pos := by
        rw [hhdef, FdToken.position_make, Nat.mod_eq_of_lt hposlt]
      have hnull : ¬ FdToken.IsNull h = true := by
        intro hcon
        unfold FdToken.IsNull at hcon
        have h0 : h = FdToken.kNull := by
          simpa using hcon
        rw [h0] at hGen
        unfold FdToken.Generation FdToken.kNull at hGen
        simp at hGen
        omega
      rw [heq]
      set sR : FdKVCache := { s1 with key_to_position := (s1.key_to_position.Insert k pos).2, slots := s1.slots.set pos ⟨k, v, g, t, true⟩, size := s1.size + 1 } with hsR
      have hslotR : sR.slotAt (FdToken.Position h) = ⟨k, v, g, t, true⟩ := by
        rw [hPos, hsR]
        show (s1.slots.set pos _).getD pos default = _
        exact FdKVCache.slotAt_set_self _ _ _ hlt1
      have hlenR : sR.slots.length = s1.slots.length := by
        rw [hsR]
        show (s1.slots.set pos _).length = _
        rw [List.length_set]
      have hval : sR.ValidateHandle h = some (FdToken.Position h) := by
        refine FdKVCache.ValidateHandle_eq_some sR h hnull ?_ ?_ ?_ ?_
        · rw [hPos, hlenR]
          exact hlt1
        · rw [hslotR]
        · rw [hslotR, hTy]
        · rw [hslotR, hGen]
      constructor
      · show sR.Get h = some v
        unfold FdKVCache.Get
        rw [hval]
        simp only [hslotR]
      · show sR.FindHandle k = h
        have hfk : sR.key_to_position.Find k = some pos := by
          rw [hsR]
          show (s1.key_to_position.Insert k pos).2.Find k = some pos
          refine detail.FlatIndexMap.Find_insert s1.key_to_position _ k pos ?_ ?_
          · rw [hp4]
            exact halign
          · show s1.key_to_position.Insert k pos =
              (true, (s1.key_to_position.Insert k pos).2)
            rw [← hins]
        unfold FdKVCache.FindHandle
        rw [hfk]
        unfold FdKVCache.BuildHandle
        show FdToken.Make (sR.slotAt pos).type (sR.slotAt pos).generation pos = h
        rw [← hPos, hslotR]
        rw [hPos]

/-- Witness for the amended C4 on a fresh capacity-4 cache. -/
theorem C4_round_trip_amended_witness :
    ((FdKVCache.Reserve id 4).Insert 1 10 100).2.Get
      (((FdKVCache.Reserve id 4).Insert 1 10 100).1) = some 100 ∧
    ((FdKVCache.Reserve id 4).Insert 1 10 100).2.FindHandle 10 =
      ((FdKVCache.Reserve id 4).Insert 1 10 100).1 :=
  C4_round_trip_amended (FdKVCache.Reserve id 4) 1 10 100 (by decide)
    (by decide) (by decide) (by decide)

/-! ## Generation arithmetic and erase characterization -/

namespace FdKVCache

theorem kMaxGeneration_eq : kMaxGeneration = 16777215 := by
  unfold kMaxGeneration FdToken.kGenerationBits
  norm_num

theorem NextGeneration_range (g : Nat) :
    1 ≤ NextGeneration g ∧ NextGeneration g ≤ kMaxGeneration := by
  have hk := kMaxGeneration_eq
  unfold NextGeneration
  split <;> omega

theorem NextGeneration_iterate (j : Nat) :
    ∀ g, 1 ≤ g → g ≤ kMaxGeneration →
    NextGeneration^[j] g = (g - 1 + j) % kMaxGeneration + 1 := by
  have hk := kMaxGeneration_eq
  induction j with
  | zero =>
    intro g hg1 hg2
    rw [Function.iterate_zero_apply, Nat.mod_eq_of_lt (by omega)]
    omega
  | succ j ih =>
    intro g hg1 hg2
    rw [Function.iterate_succ_apply]
    obtain ⟨hr1, hr2⟩ := NextGeneration_range g
    rw [ih (NextGeneration g) hr1 hr2]
    unfold NextGeneration
    by_cases hge : g ≥ kMaxGeneration
    · rw [if_pos hge]
      have hgeq : g = kMaxGeneration := by omega
      rw [hgeq, hk]
      omega
    · rw [if_neg hge]
      rw [hk] at hge ⊢
      omega

theorem NextGeneration_iterate_ne (j g : Nat) (hg1 : 1 ≤ g)
    (hg2 : g ≤ kMaxGeneration) (hj1 : 1 ≤ j) (hj2 : j < kMaxGeneration) :
    NextGeneration^[j] g ≠ g := by
  have hk := kMaxGeneration_eq
  rw [NextGeneration_iterate j g hg1 hg2]
  rw [hk] at hj2 hg2 ⊢
  omega

theorem Erase_eq_none (s : FdKVCache) (h : Nat)
    (hval : s.ValidateHandle h = none) : s.Erase h = (false, s) := by
  simp only [Erase, hval]

theorem Erase_eq_idxfail (s : FdKVCache) (h pos : Nat)
    (hval : s.ValidateHandle h = some pos)
    (hfail : (s.key_to_position.Erase (s.slotAt pos).key).1 = false) :
    s.Erase h = (false,
      { s with key_to_position :=
          (s.key_to_position.Erase (s.slotAt pos).key).2 }) := by
  simp only [Erase, hval]
  rw [if_pos hfail]

theorem Erase_eq_success (s : FdKVCache) (h pos : Nat)
    (hval : s.ValidateHandle h = some pos)
    (hok : (s.key_to_position.Erase (s.slotAt pos).key).1 = true) :
    s.Erase h = (true,
      { s with
        key_to_position := (s.key_to_position.Erase (s.slotAt pos).key).2,
        slots := s.slots.set pos { s.slotAt pos with
          occupied := false, type := 0,
          generation := NextGeneration (s.slotAt pos).generation },
        free_positions := pos :: s.free_positions,
        size := s.size - 1 }) := by
  simp only [Erase, hval]
  rw [if_neg (by rw [hok]; exact fun hc => nomatch hc)]

end FdKVCache

/-! ## Reachability invariant: base case and allocation -/

theorem detail.FlatIndexMap.Erase_snd_of_false (m : detail.FlatIndexMap)
    (key : Nat) (hfalse : (m.Erase key).1 = false) : (m.Erase key).2 = m := by
  rcases detail.FlatIndexMap.Erase_char m key _ rfl with ⟨_, h2⟩ | ⟨h1, _⟩
  · exact h2
  · rw [h1] at hfalse
    exact nomatch hfalse

theorem detail.shiftRight_le_self (a k : Nat) : a >>> k ≤ a := by
  rw [Nat.shiftRight_eq_div_pow]
  exact Nat.div_le_self _ _

theorem detail.le_or_self (a b : Nat) : a ≤ a ||| b :=
  Nat.le_of_testBit (fun i hi => by rw [Nat.testBit_or, hi, Bool.true_or])

theorem detail.NextPowerOfTwo_facts (n : Nat) (hn : n ≤ 2 ^ 63) :
    1 ≤ detail.NextPowerOfTwo n ∧ n ≤ detail.NextPowerOfTwo n ∧
    detail.NextPowerOfTwo n ≤ 2 ^ 63 := by
  unfold detail.NextPowerOfTwo
  by_cases h : n ≤ 1
  · rw [if_pos h]
    refine ⟨Nat.le_refl _, h, by norm_num⟩
  · rw [if_neg h]
    dsimp only
    set a0 := n - 1 with ha0
    set a1 := a0 ||| a0 >>> 1 with ha1
    set a2 := a1 ||| a1 >>> 2 with ha2
    set a3 := a2 ||| a2 >>> 4 with ha3
    set a4 := a3 ||| a3 >>> 8 with ha4
    set a5 := a4 ||| a4 >>> 16 with ha5
    set a6 := a5 ||| a5 >>> 32 with ha6
    have l1 : a0 ≤ a1 := detail.le_or_self _ _
    have l2 : a1 ≤ a2 := detail.le_or_self _ _
    have l3 : a2 ≤ a3 := detail.le_or_self _ _
    have l4 : a3 ≤ a4 := detail.le_or_self _ _
    have l5 : a4 ≤ a5 := detail.le_or_self _ _
    have l6 : a5 ≤ a6 := detail.le_or_self _ _
    have hb0 : a0 < 2 ^ 63 := by omega
    have hb1 : a1 < 2 ^ 63 := Nat.or_lt_two_pow hb0
      (Nat.lt_of_le_of_lt (detail.shiftRight_le_self _ _) hb0)
    have hb2 : a2 < 2 ^ 63 := Nat.or_lt_two_pow hb1
      (Nat.lt_of_le_of_lt (detail.shiftRight_le_self _ _) hb1)
    have hb3 : a3 < 2 ^ 63 := Nat.or_lt_two_pow hb2
      (Nat.lt_of_le_of_lt (detail.shiftRight_le_self _ _) hb2)
    have hb4 : a4 < 2 ^ 63 := Nat.or_lt_two_pow hb3
      (Nat.lt_of_le_of_lt (detail.shiftRight_le_self _ _) hb3)
    have hb5 : a5 < 2 ^ 63 := Nat.or_lt_two_pow hb4
      (Nat.lt_of_le_of_lt (detail.shiftRight_le_self _ _) hb4)
    have hb6 : a6 < 2 ^ 63 := Nat.or_lt_two_pow hb5
      (Nat.lt_of_le_of_lt (detail.shiftRight_le_self _ _) hb5)
    have hmod : (a6 + 1) % 2 ^ 64 = a6 + 1 := Nat.mod_eq_of_lt (by omega)
    rw [hmod]
    omega

theorem detail.FlatIndexMap.Init_eq (hashf : Nat → Nat) (max_entries : Nat) :
    detail.FlatIndexMap.Init hashf max_entries =
      { hashf := hashf,
        table := List.replicate (detail.NextPowerOfTwo ((if max_entries = 0 then 1 else max_entries) * 2 % 2 ^ 64)) default,
        mask := (detail.NextPowerOfTwo ((if max_entries = 0 then 1 else max_entries) * 2 % 2 ^ 64) + (2 ^ 64 - 1)) % 2 ^ 64,
        max_entries := if max_entries = 0 then 1 else max_entries,
        size := 0, tombstones := 0 } := rfl

namespace FdKVCache

theorem Insert_found_eq (s : FdKVCache) (t k v pos : Nat)
    (hfound : s.key_to_position.Find k = some pos) :
    s.Insert t k v = (s.BuildHandle pos, s) := by
  simp only [Insert, hfound]

theorem CacheInv_reserve (hashf : Nat → Nat) (n : Nat) (hn1 : 1 ≤ n)
    (hn2 : n ≤ 2 ^ 32) :
    CacheInv (Reserve hashf n) ∧ (Reserve hashf n).slots.length = n := by
  have hnz : ¬ n = 0 := by omega
  have hres : Reserve hashf n =
      { slots := List.replicate n default, free_positions := [],
        key_to_position := detail.FlatIndexMap.Init hashf n,
        next_unused := 0, size := 0 } := by
    unfold Reserve
    rw [if_neg hnz]
  rw [hres, detail.FlatIndexMap.Init_eq]
  have harg : (if n = 0 then 1 else n) * 2 % 2 ^ 64 ≤ 2 ^ 63 := by
    have hle : (if n = 0 then 1 else n) ≤ 2 ^ 32 := by split <;> omega
    omega
  obtain ⟨hcap, -, hcap63⟩ := detail.NextPowerOfTwo_facts _ harg
  refine ⟨⟨?_, ?_, ?_, ?_, ?_, ?_, ?_, ?_, ?_, ?_⟩, ?_⟩
  · show (List.replicate (detail.NextPowerOfTwo ((if n = 0 then 1 else n) * 2 % 2 ^ 64)) (default : detail.Entry)).length = (detail.NextPowerOfTwo ((if n = 0 then 1 else n) * 2 % 2 ^ 64) + (2 ^ 64 - 1)) % 2 ^ 64 + 1
    rw [List.length_replicate]
    omega
  · intro e he hocc
    have he2 : e = default := List.eq_of_mem_replicate he
    rw [he2] at hocc
    exact nomatch hocc
  · intro sl hsl
    have hd : sl = default := List.eq_of_mem_replicate hsl
    rw [hd]
    refine ⟨by decide, by decide, by decide⟩
  · intro p hp
    exact absurd hp (List.not_mem_nil p)
  · exact List.nodup_nil
  · intro p hp _
    show ((List.replicate n (default : Slot)).getD p default).occupied = false
    rw [List.getD_eq_getElem?_getD, List.getElem?_replicate_of_lt
      (by rw [List.length_replicate] at hp; exact hp)]
    rfl
  · show (0 : Nat) ≤ (List.replicate n (default : Slot)).length
    omega
  · show (0 : Nat) = countOccSlots (List.replicate n default)
    unfold countOccSlots
    rw [List.countP_replicate]
    rfl
  · rw [List.length_replicate]
    omega
  · rw [List.length_replicate]
    omega
  · exact List.length_replicate n default

theorem AllocatePosition_facts (s : FdKVCache) (hinv : CacheInv s)
    (hpos : (s.AllocatePosition).1 ≠ kInvalidPosition) :
    CacheInv (s.AllocatePosition).2 ∧
    (s.AllocatePosition).2.slots = s.slots ∧
    (s.AllocatePosition).2.key_to_position = s.key_to_position ∧
    (s.AllocatePosition).2.size = s.size ∧
    (s.AllocatePosition).1 < s.slots.length ∧
    (s.slotAt (s.AllocatePosition).1).occupied = false ∧
    (s.AllocatePosition).1 ∉ (s.AllocatePosition).2.free_positions ∧
    (s.AllocatePosition).1 < (s.AllocatePosition).2.next_unused := by
  obtain ⟨hi1, hi2, hi3, hfree, hnodup, hpristine, hnu, hsz, hlen1, hlen32⟩ := hinv
  rcases hfp : s.free_positions with _ | ⟨p, rest⟩
  · have halloc : s.AllocatePosition =
        (if s.next_unused ≥ s.slots.length then (kInvalidPosition, s)
         else (s.next_unused, { s with next_unused := s.next_unused + 1 })) := by
      unfold AllocatePosition
      rw [hfp]
    by_cases hge : s.next_unused ≥ s.slots.length
    · rw [halloc, if_pos hge] at hpos
      exact absurd rfl hpos
    · rw [halloc, if_neg hge]
      dsimp only
      have hlt : s.next_unused < s.slots.length := by omega
      refine ⟨⟨hi1, hi2, hi3, ?_, hnodup, ?_,
        (by show s.next_unused + 1 ≤ s.slots.length; omega), hsz, hlen1,
        hlen32⟩, rfl, rfl, rfl, hlt, hpristine _ hlt (Nat.le_refl _), ?_,
        (by show s.next_unused < s.next_unused + 1; omega)⟩
      · intro q hq
        obtain ⟨hq1, hq2, hq3⟩ := hfree q hq
        exact ⟨hq1, (by show q < s.next_unused + 1; omega), hq3⟩
      · intro q hq1 hq2
        have hq1a : q < s.slots.length := hq1
        have hq2a : s.next_unused + 1 ≤ q := hq2
        exact hpristine q hq1a (by omega)
      · rw [hfp]
        exact List.not_mem_nil _
  · have halloc : s.AllocatePosition = (p, { s with free_positions := rest }) := by
      unfold AllocatePosition
      rw [hfp]
    have hmem : p ∈ s.free_positions := by
      rw [hfp]
      exact List.mem_cons_self p rest
    obtain ⟨hp1, hp2, hp3⟩ := hfree p hmem
    have hnodup2 : (p :: rest).Nodup := by rw [← hfp]; exact hnodup
    rw [halloc]
    dsimp only
    refine ⟨⟨hi1, hi2, hi3, ?_, ?_, hpristine, hnu, hsz, hlen1, hlen32⟩,
      rfl, rfl, rfl, hp1, hp3, ?_, hp2⟩
    · intro q hq
      exact hfree q (by rw [hfp]; exact List.mem_cons_of_mem p hq)
    · exact (List.nodup_cons.mp hnodup2).2
    · exact (List.nodup_cons.mp hnodup2).1

end FdKVCache
namespace FdKVCache

theorem getD_eq_getElem_slots (l : List Slot) (p : Nat) (hp : p < l.length) :
    l.getD p default = l[p] := by
  rw [List.getD_eq_getElem?_getD, List.getElem?_eq_getElem hp]
  rfl

theorem countOccSlots_set (l : List Slot) (p : Nat) (a : Slot)
    (hp : p < l.length) :
    countOccSlots (l.set p a) =
      countOccSlots l - (if (l.getD p default).occupied then 1 else 0) +
        (if a.occupied then 1 else 0) := by
  unfold countOccSlots
  rw [List.countP_set _ _ _ _ hp, getD_eq_getElem_slots l p hp]

theorem occupied_le_countOccSlots (l : List Slot) (p : Nat) (hp : p < l.length)
    (hocc : (l.getD p default).occupied = true) : 1 ≤ countOccSlots l := by
  have h := List.boole_getElem_le_countP (fun sl => sl.occupied) l p hp
  rw [← getD_eq_getElem_slots l p hp, hocc, if_pos rfl] at h
  unfold countOccSlots
  exact h

theorem CacheInv_alloc (s : FdKVCache) (hinv : CacheInv s) :
    CacheInv (s.AllocatePosition).2 ∧ (s.AllocatePosition).2.slots = s.slots := by
  obtain ⟨hi1, hi2, hi3, hfree, hnodup, hpristine, hnu, hsz, hlen1, hlen32⟩ := hinv
  rcases hfp : s.free_positions with _ | ⟨p, rest⟩
  · have halloc : s.AllocatePosition =
        (if s.next_unused ≥ s.slots.length then (kInvalidPosition, s)
         else (s.next_unused, { s with next_unused := s.next_unused + 1 })) := by
      unfold AllocatePosition
      rw [hfp]
    by_cases hge : s.next_unused ≥ s.slots.length
    · rw [halloc, if_pos hge]
      exact ⟨⟨hi1, hi2, hi3, hfree, hnodup, hpristine, hnu, hsz, hlen1, hlen32⟩, rfl⟩
    · rw [halloc, if_neg hge]
      dsimp only
      refine ⟨⟨hi1, hi2, hi3, ?_, hnodup, ?_,
        (by show s.next_unused + 1 ≤ s.slots.length; omega), hsz, hlen1,
        hlen32⟩, rfl⟩
      · intro q hq
        obtain ⟨hq1, hq2, hq3⟩ := hfree q hq
        exact ⟨hq1, (by show q < s.next_unused + 1; omega), hq3⟩
      · intro q hq1 hq2
        have hq1a : q < s.slots.length := hq1
        have hq2a : s.next_unused + 1 ≤ q := hq2
        exact hpristine q hq1a (by omega)
  · have halloc : s.AllocatePosition = (p, { s with free_positions := rest }) := by
      unfold AllocatePosition
      rw [hfp]
    have hnodup2 : (p :: rest).Nodup := by rw [← hfp]; exact hnodup
    rw [halloc]
    dsimp only
    refine ⟨⟨hi1, hi2, hi3, ?_, (List.nodup_cons.mp hnodup2).2, hpristine,
      hnu, hsz, hlen1, hlen32⟩, rfl⟩
    intro q hq
    exact hfree q (by rw [hfp]; exact List.mem_cons_of_mem p hq)

theorem CacheInv_insert (s : FdKVCache) (t k v : Nat) (hinv : CacheInv s)
    (ht : t < 2 ^ 8) :
    CacheInv (s.Insert t k v).2 ∧
    (s.Insert t k v).2.slots.length = s.slots.length := by
  cases hf : s.key_to_position.Find k with
  | some pos =>
    rw [Insert_found_eq s t k v pos hf]
    exact ⟨hinv, rfl⟩
  | none =>
    by_cases hap : (s.AllocatePosition).1 = kInvalidPosition
    · rw [Insert_alloc_fail_eq s t k v hf hap]
      obtain ⟨h1, h2⟩ := CacheInv_alloc s hinv
      exact ⟨h1, by rw [h2]⟩
    · obtain ⟨hinv1, ha2, ha3, ha4, ha5, ha6, ha7, ha8⟩ :=
        AllocatePosition_facts s hinv hap
      rcases halloc : s.AllocatePosition with ⟨pos, s1⟩
      rw [halloc] at hinv1 ha2 ha3 ha4 ha5 ha6 ha7 ha8 hap
      dsimp only at hinv1 ha2 ha3 ha4 ha5 ha6 ha7 ha8 hap
      have hlt1 : pos < s1.slots.length := by rw [ha2]; exact ha5
      have hunocc1 : (s1.slotAt pos).occupied = false := by
        show (s1.slots.getD pos default).occupied = false
        rw [ha2]
        exact ha6
      obtain ⟨hi1, hi2, hi3, hfree, hnodup, hpristine, hnu, hsz, hlen1,
        hlen32⟩ := hinv1
      have hgen := hi3 _ (slotAt_mem s1 pos hlt1)
      cases hins : (s1.key_to_position.Insert k pos).1 with
      | true =>
        rw [Insert_fresh_success_eq s t k v pos s1 hf halloc hap hlt1 hins]
        dsimp only
        obtain ⟨j, e1, hc1, hc2, hc3, hc4, hc5, hc6, hc7, hc8, hc9, hc10⟩ :=
          detail.FlatIndexMap.Insert_true_char s1.key_to_position k pos _ rfl
            hins
        refine ⟨⟨?_, ?_, ?_, ?_, hnodup, ?_, ?_, ?_, ?_, ?_⟩, ?_⟩
        · show (s1.key_to_position.Insert k pos).2.table.length =
            (s1.key_to_position.Insert k pos).2.mask + 1
          rw [hc4, List.length_set, hc2]
          rw [ha3]
          have : s1.key_to_position.table.length = s1.key_to_position.mask + 1 := hi1
          rw [ha3] at this
          exact this
        · intro e he hocc
          rw [List.length_set]
          have he2 : e ∈ (s1.key_to_position.Insert k pos).2.table := he
          rw [hc4] at he2
          rcases List.mem_or_eq_of_mem_set he2 with hmem | heq
          · exact hi2 e hmem hocc
          · rw [heq, hc7]
            exact hlt1
        · intro sl hsl
          rcases List.mem_or_eq_of_mem_set hsl with hmem | heq
          · exact hi3 sl hmem
          · rw [heq]
            exact ⟨hgen.1, hgen.2.1, ht⟩
        · intro q hq
          obtain ⟨hq1, hq2, hq3⟩ := hfree q hq
          have hqpos : q ≠ pos := by
            intro hcon
            rw [hcon] at hq
            exact ha7 hq
          refine ⟨by rw [List.length_set]; exact hq1, hq2, ?_⟩
          show ((s1.slots.set pos _).getD q default).occupied = false
          rw [slotAt_set_ne _ _ _ _ (fun hc => hqpos hc.symm)]
          exact hq3
        · intro q hq1 hq2
          rw [List.length_set] at hq1
          have hq2a : s1.next_unused ≤ q := hq2
          have hqpos : q ≠ pos := by omega
          show ((s1.slots.set pos _).getD q default).occupied = false
          rw [slotAt_set_ne _ _ _ _ (fun hc => hqpos hc.symm)]
          exact hpristine q hq1 hq2a
        · rw [List.length_set]
          exact hnu
        · show s1.size + 1 = countOccSlots (s1.slots.set pos _)
          rw [countOccSlots_set _ _ _ hlt1]
          have hgd : (s1.slots.getD pos default).occupied = false := hunocc1
          rw [hgd]
          simp only [if_false, if_true, Bool.false_eq_true]
          omega
        · rw [List.length_set]
          exact hlen1
        · rw [List.length_set]
          exact hlen32
        · rw [List.length_set, ha2]
      | false =>
        rw [Insert_rollback_eq s t k v pos s1 hf halloc hap hins]
        dsimp only
        rw [List.set_set]
        have hsnd : (s1.key_to_position.Insert k pos).2 = s1.key_to_position :=
          detail.FlatIndexMap.Insert_snd_of_false _ _ _ hins
        refine ⟨⟨?_, ?_, ?_, ?_, ?_, ?_, ?_, ?_, ?_, ?_⟩, ?_⟩
        · show (s1.key_to_position.Insert k pos).2.table.length =
            (s1.key_to_position.Insert k pos).2.mask + 1
          rw [hsnd]
          exact hi1
        · intro e he hocc
          rw [List.length_set]
          rw [hsnd] at he
          exact hi2 e he hocc
        · intro sl hsl
          rcases List.mem_or_eq_of_mem_set hsl with hmem | heq
          · exact hi3 sl hmem
          · rw [heq]
            exact ⟨hgen.1, hgen.2.1, ht⟩
        · intro q hq
          rcases List.mem_cons.mp hq with hqe | hqm
          · subst hqe
            refine ⟨by rw [List.length_set]; exact hlt1, ha8, ?_⟩
            show ((s1.slots.set q _).getD q default).occupied = false
            rw [slotAt_set_self _ _ _ hlt1]
          · obtain ⟨hq1, hq2, hq3⟩ := hfree q hqm
            have hqpos : q ≠ pos := by
              intro hcon
              rw [hcon] at hqm
              exact ha7 hqm
            refine ⟨by rw [List.length_set]; exact hq1, hq2, ?_⟩
            show ((s1.slots.set pos _).getD q default).occupied = false
            rw [slotAt_set_ne _ _ _ _ (fun hc => hqpos hc.symm)]
            exact hq3
        · exact List.nodup_cons.mpr ⟨ha7, hnodup⟩
        · intro q hq1 hq2
          rw [List.length_set] at hq1
          have hq2a : s1.next_unused ≤ q := hq2
          have hqpos : q ≠ pos := by omega
          show ((s1.slots.set pos _).getD q default).occupied = false
          rw [slotAt_set_ne _ _ _ _ (fun hc => hqpos hc.symm)]
          exact hpristine q hq1 hq2a
        · rw [List.length_set]
          exact hnu
        · show s1.size = countOccSlots (s1.slots.set pos _)
          rw [countOccSlots_set _ _ _ hlt1]
          have hgd : (s1.slots.getD pos default).occupied = false := hunocc1
          rw [hgd]
          simp only [if_false, Bool.false_eq_true]
          omega
        · rw [List.length_set]
          exact hlen1
        · rw [List.length_set]
          exact hlen32
        · rw [List.length_set, ha2]

end FdKVCache

namespace FdKVCache

theorem InsertOrAssign_found_eq (s : FdKVCache) (t k v pos : Nat)
    (hfound : s.key_to_position.Find k = some pos) :
    s.InsertOrAssign t k v =
      (BuildHandle { s with slots := s.slots.set pos { s.slotAt pos with value := v, type := t } } pos,
       { s with slots := s.slots.set pos { s.slotAt pos with value := v, type := t } }) := by
  simp only [InsertOrAssign, hfound]

theorem CacheInv_upsert (s : FdKVCache) (t k v : Nat) (hinv : CacheInv s)
    (ht : t < 2 ^ 8) :
    CacheInv (s.InsertOrAssign t k v).2 ∧
    (s.InsertOrAssign t k v).2.slots.length = s.slots.length := by
  cases hf : s.key_to_position.Find k with
  | none =>
    have heq : (s.InsertOrAssign t k v).2 = (s.Insert t k v).2 := by
      simp only [InsertOrAssign, hf]
    rw [heq]
    exact CacheInv_insert s t k v hinv ht
  | some pos =>
    have hposlen : pos < s.slots.length := Find_pos_lt s k pos hinv hf
    rw [InsertOrAssign_found_eq s t k v pos hf]
    dsimp only
    obtain ⟨hi1, hi2, hi3, hfree, hnodup, hpristine, hnu, hsz, hlen1,
      hlen32⟩ := hinv
    have hgen := hi3 _ (slotAt_mem s pos hposlen)
    refine ⟨⟨hi1, ?_, ?_, ?_, hnodup, ?_, ?_, ?_, ?_, ?_⟩, ?_⟩
    · intro e he hocc
      rw [List.length_set]
      exact hi2 e he hocc
    · intro sl hsl
      rcases List.mem_or_eq_of_mem_set hsl with hmem | heq
      · exact hi3 sl hmem
      · rw [heq]
        exact ⟨hgen.1, hgen.2.1, ht⟩
    · intro q hq
      obtain ⟨hq1, hq2, hq3⟩ := hfree q hq
      refine ⟨by rw [List.length_set]; exact hq1, hq2, ?_⟩
      by_cases hqpos : q = pos
      · subst hqpos
        show ((s.slots.set q _).getD q default).occupied = false
        rw [slotAt_set_self _ _ _ hposlen]
        exact hq3
      · show ((s.slots.set pos _).getD q default).occupied = false
        rw [slotAt_set_ne _ _ _ _ (fun hc => hqpos hc.symm)]
        exact hq3
    · intro q hq1 hq2
      rw [List.length_set] at hq1
      have hq2a : s.next_unused ≤ q := hq2
      by_cases hqpos : q = pos
      · subst hqpos
        show ((s.slots.set q _).getD q default).occupied = false
        rw [slotAt_set_self _ _ _ hposlen]
        exact hpristine q hq1 hq2a
      · show ((s.slots.set pos _).getD q default).occupied = false
        rw [slotAt_set_ne _ _ _ _ (fun hc => hqpos hc.symm)]
        exact hpristine q hq1 hq2a
    · rw [List.length_set]
      exact hnu
    · show s.size = countOccSlots (s.slots.set pos _)
      rw [countOccSlots_set _ _ _ hposlen]
      show s.size = countOccSlots s.slots -
        (if (s.slots.getD pos default).occupied then 1 else 0) +
        (if (s.slots.getD pos default).occupied then 1 else 0)
      cases hoc : (s.slots.getD pos default).occupied
      · simp only [Bool.false_eq_true, if_false]
        omega
      · have h1 : 1 ≤ countOccSlots s.slots :=
          occupied_le_countOccSlots s.slots pos hposlen hoc
        rw [if_pos rfl]
        omega
    · rw [List.length_set]
      exact hlen1
    · rw [List.length_set]
      exact hlen32
    · rw [List.length_set]

theorem CacheInv_erase (s : FdKVCache) (h : Nat) (hinv : CacheInv s) :
    CacheInv (s.Erase h).2 ∧ (s.Erase h).2.slots.length = s.slots.length := by
  cases hv : s.ValidateHandle h with
  | none =>
    rw [Erase_eq_none s h hv]
    exact ⟨hinv, rfl⟩
  | some pos =>
    obtain ⟨hq, hqlt, hqocc, _, _, _⟩ := ValidateHandle_some_char s h pos hv
    cases her : (s.key_to_position.Erase (s.slotAt pos).key).1 with
    | false =>
      rw [Erase_eq_idxfail s h pos hv her]
      dsimp only
      have hsnd : (s.key_to_position.Erase (s.slotAt pos).key).2 =
          s.key_to_position :=
        detail.FlatIndexMap.Erase_snd_of_false _ _ her
      obtain ⟨hi1, hi2, hi3, hfree, hnodup, hpristine, hnu, hsz, hlen1,
        hlen32⟩ := hinv
      refine ⟨⟨?_, ?_, hi3, hfree, hnodup, hpristine, hnu, hsz, hlen1,
        hlen32⟩, rfl⟩
      · show (s.key_to_position.Erase (s.slotAt pos).key).2.table.length =
          (s.key_to_position.Erase (s.slotAt pos).key).2.mask + 1
        rw [hsnd]
        exact hi1
      · intro e he hocc
        rw [hsnd] at he
        exact hi2 e he hocc
    | true =>
      rw [Erase_eq_success s h pos hv her]
      dsimp only
      rcases detail.FlatIndexMap.Erase_char s.key_to_position
          (s.slotAt pos).key _ rfl with ⟨hf1, _⟩ | ⟨_, j, hj, hjocc, hjkey, her2⟩
      · rw [hf1] at her
        exact nomatch her
      obtain ⟨hi1, hi2, hi3, hfree, hnodup, hpristine, hnu, hsz, hlen1,
        hlen32⟩ := hinv
      have hgen := hi3 _ (slotAt_mem s pos hqlt)
      have hposnu : pos < s.next_unused := by
        by_contra hcon
        have := hpristine pos hqlt (by omega)
        rw [this] at hqocc
        exact nomatch hqocc
    --
      have hposfree : pos ∉ s.free_positions := by
        intro hcon
        obtain ⟨_, _, hu⟩ := hfree pos hcon
        rw [hu] at hqocc
        exact nomatch hqocc
      refine ⟨⟨?_, ?_, ?_, ?_, ?_, ?_, ?_, ?_, ?_, ?_⟩, ?_⟩
      · show (s.key_to_position.Erase (s.slotAt pos).key).2.table.length =
          (s.key_to_position.Erase (s.slotAt pos).key).2.mask + 1
        rw [her2]
        dsimp only
        rw [List.length_set]
        exact hi1
      · intro e he hocc
        rw [List.length_set]
        have he2 : e ∈ (s.key_to_position.Erase (s.slotAt pos).key).2.table := he
        rw [her2] at he2
        dsimp only at he2
        rcases List.mem_or_eq_of_mem_set he2 with hmem | heq
        · exact hi2 e hmem hocc
        · rw [heq] at hocc
          exact nomatch hocc
      · intro sl hsl
        rcases List.mem_or_eq_of_mem_set hsl with hmem | heq
        · exact hi3 sl hmem
        · rw [heq]
          obtain ⟨hr1, hr2⟩ := NextGeneration_range (s.slotAt pos).generation
          exact ⟨hr1, hr2, by norm_num⟩
      · intro q hq
        rcases List.mem_cons.mp hq with hqe | hqm
        · subst hqe
          refine ⟨by rw [List.length_set]; exact hqlt, hposnu, ?_⟩
          show ((s.slots.set q _).getD q default).occupied = false
          rw [slotAt_set_self _ _ _ hqlt]
        · obtain ⟨hq1, hq2, hq3⟩ := hfree q hqm
          have hqpos : q ≠ pos := by
            intro hcon
            rw [hcon] at hqm
            exact hposfree hqm
          refine ⟨by rw [List.length_set]; exact hq1, hq2, ?_⟩
          show ((s.slots.set pos _).getD q default).occupied = false
          rw [slotAt_set_ne _ _ _ _ (fun hc => hqpos hc.symm)]
          exact hq3
      · exact List.nodup_cons.mpr ⟨hposfree, hnodup⟩
      · intro q hq1 hq2
        rw [List.length_set] at hq1
        have hq2a : s.next_unused ≤ q := hq2
        have hqpos : q ≠ pos := by omega
        show ((s.slots.set pos _).getD q default).occupied = false
        rw [slotAt_set_ne _ _ _ _ (fun hc => hqpos hc.symm)]
        exact hpristine q hq1 hq2a
      · rw [List.length_set]
        exact hnu
      · show s.size - 1 = countOccSlots (s.slots.set pos _)
        rw [countOccSlots_set _ _ _ hqlt]
        have hgd : (s.slots.getD pos default).occupied = true := hqocc
        rw [hgd]
        have h1 : 1 ≤ countOccSlots s.slots :=
          occupied_le_countOccSlots s.slots pos hqlt hgd
        simp only [if_true, Bool.false_eq_true, if_false]
        omega
      · rw [List.length_set]
        exact hlen1
      · rw [List.length_set]
        exact hlen32
      · rw [List.length_set]

theorem CacheInv_applyOp (s : FdKVCache) (op : CacheOp) (hinv : CacheInv s) :
    CacheInv (applyOp s op) ∧ (applyOp s op).slots.length = s.slots.length := by
  cases op with
  | ins t k v =>
    exact CacheInv_insert s (t % 2 ^ 8) k v hinv (Nat.mod_lt _ (by norm_num))
  | upsert t k v =>
    exact CacheInv_upsert s (t % 2 ^ 8) k v hinv (Nat.mod_lt _ (by norm_num))
  | del h =>
    exact CacheInv_erase s (h % 2 ^ 64) hinv

theorem CacheInv_run (ops : List CacheOp) :
    ∀ s : FdKVCache, CacheInv s →
      CacheInv (run s ops) ∧ (run s ops).slots.length = s.slots.length := by
  induction ops with
  | nil => exact fun s hinv => ⟨hinv, rfl⟩
  | cons op ops ih =>
    intro s hinv
    obtain ⟨h1, h2⟩ := CacheInv_applyOp s op hinv
    obtain ⟨h3, h4⟩ := ih (applyOp s op) h1
    exact ⟨h3, by rw [show run s (op :: ops) = run (applyOp s op) ops from rfl, h4, h2]⟩

theorem CacheInv_of_reachable (s : FdKVCache) (hr : CacheReachable s) :
    CacheInv s := by
  obtain ⟨hashf, n, ops, hn, hs⟩ := hr
  subst hs
  by_cases hn1 : 1 ≤ n
  · exact (CacheInv_run ops _ (CacheInv_reserve hashf n hn1 hn).1).1
  · have hn0 : n = 0 := by omega
    subst hn0
    have h01 : Reserve hashf 0 = Reserve hashf 1 := by
      unfold Reserve
      norm_num
    rw [h01]
    exact (CacheInv_run ops _
      (CacheInv_reserve hashf 1 (by omega) (by norm_num)).1).1

end FdKVCache

/-! ## Theorems: bounded capacity (claim C6) -/

namespace FdKVCache

theorem slotGen_set_eq (l : List Slot) (pos : Nat) (a : Slot) (p : Nat)
    (hgen : a.generation = (l.getD pos default).generation) :
    ((l.set pos a).getD p default).generation =
      (l.getD p default).generation := by
  by_cases hp : p = pos
  · subst hp
    by_cases hlt : p < l.length
    · rw [slotAt_set_self _ _ _ hlt, hgen]
    · rw [List.getD_eq_getElem?_getD, List.getElem?_eq_none
        (by rw [List.length_set]; omega)]
      rw [List.getD_eq_getElem?_getD, List.getElem?_eq_none (by omega)]
  · rw [slotAt_set_ne _ _ _ _ (fun hc => hp hc.symm)]

theorem slotGen_insert (s : FdKVCache) (t k v p : Nat) (hinv : CacheInv s) :
    slotGen (s.Insert t k v).2 p = slotGen s p := by
  cases hf : s.key_to_position.Find k with
  | some pos =>
    rw [Insert_found_eq s t k v pos hf]
  | none =>
    by_cases hap : (s.AllocatePosition).1 = kInvalidPosition
    · rw [Insert_alloc_fail_eq s t k v hf hap]
      obtain ⟨_, h2⟩ := CacheInv_alloc s hinv
      show ((s.AllocatePosition).2.slots.getD p default).generation = _
      rw [h2]
      rfl
    · obtain ⟨hinv1, ha2, ha3, ha4, ha5, ha6, ha7, ha8⟩ :=
        AllocatePosition_facts s hinv hap
      rcases halloc : s.AllocatePosition with ⟨pos, s1⟩
      rw [halloc] at hinv1 ha2 ha3 ha4 ha5 ha6 ha7 ha8 hap
      dsimp only at hinv1 ha2 ha3 ha4 ha5 ha6 ha7 ha8 hap
      have hlt1 : pos < s1.slots.length := by rw [ha2]; exact ha5
      have hbase : ∀ q, slotGen s1 q = slotGen s q := by
        intro q
        show (s1.slots.getD q default).generation = _
        rw [ha2]
        rfl
      cases hins : (s1.key_to_position.Insert k pos).1 with
      | true =>
        rw [Insert_fresh_success_eq s t k v pos s1 hf halloc hap hlt1 hins]
        show ((s1.slots.set pos _).getD p default).generation = _
        exact (slotGen_set_eq s1.slots pos
          ⟨k, v, (s1.slotAt pos).generation, t, true⟩ p rfl).trans (hbase p)
      | false =>
        rw [Insert_rollback_eq s t k v pos s1 hf halloc hap hins]
        show (((s1.slots.set pos _).set pos _).getD p default).generation = _
        rw [List.set_set]
        exact (slotGen_set_eq s1.slots pos
          ⟨k, v, (s1.slotAt pos).generation, t, false⟩ p rfl).trans (hbase p)

theorem slotGen_upsert (s : FdKVCache) (t k v p : Nat) (hinv : CacheInv s) :
    slotGen (s.InsertOrAssign t k v).2 p = slotGen s p := by
  cases hf : s.key_to_position.Find k with
  | none =>
    have heq : (s.InsertOrAssign t k v).2 = (s.Insert t k v).2 := by
      simp only [InsertOrAssign, hf]
    rw [heq]
    exact slotGen_insert s t k v p hinv
  | some pos =>
    rw [InsertOrAssign_found_eq s t k v pos hf]
    show ((s.slots.set pos _).getD p default).generation = _
    exact slotGen_set_eq s.slots pos _ p rfl

theorem slotGen_erase (s : FdKVCache) (h p : Nat) :
    slotGen (s.Erase h).2 p = slotGen s p ∨
    ((s.Erase h).1 = true ∧ p = FdToken.Position h ∧
      slotGen (s.Erase h).2 p = NextGeneration (slotGen s p)) := by
  cases hv : s.ValidateHandle h with
  | none =>
    rw [Erase_eq_none s h hv]
    exact Or.inl rfl
  | some pos =>
    obtain ⟨hq, hqlt, _, _, _, _⟩ := ValidateHandle_some_char s h pos hv
    cases her : (s.key_to_position.Erase (s.slotAt pos).key).1 with
    | false =>
      rw [Erase_eq_idxfail s h pos hv her]
      exact Or.inl rfl
    | true =>
      rw [Erase_eq_success s h pos hv her]
      by_cases hp : p = pos
      · subst hp
        refine Or.inr ⟨rfl, hq, ?_⟩
        show ((s.slots.set p _).getD p default).generation = _
        rw [slotAt_set_self _ _ _ hqlt]
        rfl
      · refine Or.inl ?_
        show ((s.slots.set pos _).getD p default).generation = _
        rw [slotAt_set_ne _ _ _ _ (fun hc => hp hc.symm)]
        rfl

theorem slotGen_applyOp (s : FdKVCache) (op : CacheOp) (p : Nat)
    (hinv : CacheInv s) :
    slotGen (applyOp s op) p = slotGen s p ∨
    (slotGen (applyOp s op) p = NextGeneration (slotGen s p) ∧
      countDelAt p [op] = 1) := by
  cases op with
  | ins t k v => exact Or.inl (slotGen_insert s (t % 2 ^ 8) k v p hinv)
  | upsert t k v => exact Or.inl (slotGen_upsert s (t % 2 ^ 8) k v p hinv)
  | del h =>
    rcases slotGen_erase s (h % 2 ^ 64) p with h1 | ⟨_, h2, h3⟩
    · exact Or.inl h1
    · refine Or.inr ⟨h3, ?_⟩
      unfold countDelAt
      rw [List.countP_cons]
      simp only [List.countP_nil]
      rw [h2]
      simp

theorem slotGen_run (ops : List CacheOp) :
    ∀ s : FdKVCache, ∀ p, CacheInv s →
      ∃ j, j ≤ countDelAt p ops ∧
        slotGen (run s ops) p = NextGeneration^[j] (slotGen s p) := by
  induction ops with
  | nil =>
    intro s p _
    exact ⟨0, Nat.le_refl _, rfl⟩
  | cons op ops ih =>
    intro s p hinv
    have hinv2 := (CacheInv_applyOp s op hinv).1
    obtain ⟨j, hj1, hj2⟩ := ih (applyOp s op) p hinv2
    have hrun : run s (op :: ops) = run (applyOp s op) ops := rfl
    have hcount : countDelAt p (op :: ops) =
        countDelAt p [op] + countDelAt p ops := by
      unfold countDelAt
      rw [List.countP_cons, List.countP_cons]
      simp only [List.countP_nil]
      omega
    rcases slotGen_applyOp s op p hinv with h1 | ⟨h2, h3⟩
    · refine ⟨j, by omega, ?_⟩
      rw [hrun, hj2, h1]
    · refine ⟨j + 1, by omega, ?_⟩
      rw [hrun, hj2, h2]
      rw [Function.iterate_succ_apply]

end FdKVCache

/-! ## Theorems: generation lifecycle (claim C7) -/

namespace FdKVCache

theorem Generation_BuildHandle_ne_zero (s : FdKVCache) (pos : Nat)
    (hinv : CacheInv s) (hlt : pos < s.slots.length) :
    FdToken.Generation (s.BuildHandle pos) ≠ 0 := by
  have hmem := slotAt_mem s pos hlt
  obtain ⟨hg1, hg2, _⟩ := hinv.2.2.1 _ hmem
  have hk := kMaxGeneration_eq
  show FdToken.Generation
    (FdToken.Make (s.slotAt pos).type (s.slotAt pos).generation pos) ≠ 0
  rw [FdToken.generation_make]
  omega

theorem NextGeneration_rule (g : Nat) (_h1 : 1 ≤ g) (h2 : g ≤ kMaxGeneration) :
    NextGeneration g = if g = 2 ^ 24 - 1 then 1 else g + 1 := by
  have hk := kMaxGeneration_eq
  unfold NextGeneration
  by_cases hc : g = 2 ^ 24 - 1
  · rw [if_pos (by omega), if_pos hc]
  · rw [if_neg (by omega), if_neg hc]

end FdKVCache

/-- C7: generation lifecycle: every slot of a freshly constructed cache
has generation 1; a successful erase of a validated handle bumps the
erased slot's generation by the rule `g → g+1` except `g = 2²⁴−1 → 1`;
insert never changes any slot's generation; no slot of a reachable cache
has generation 0; and no non-null handle returned by `Insert` or
`FindHandle` carries generation 0. -/
theorem C7_generation_lifecycle (s : FdKVCache)
    (hr : FdKVCache.CacheReachable s) :
    (∀ hashf n, ∀ sl ∈ (FdKVCache.Reserve hashf n).slots,
      sl.generation = 1) ∧
    (∀ h pos, s.ValidateHandle h = some pos → (s.Erase h).1 = true →
      FdKVCache.slotGen (s.Erase h).2 pos =
        (if FdKVCache.slotGen s pos = 2 ^ 24 - 1 then 1
         else FdKVCache.slotGen s pos + 1)) ∧
    (∀ t k v p,
      FdKVCache.slotGen (s.Insert t k v).2 p = FdKVCache.slotGen s p) ∧
    (∀ sl ∈ s.slots, sl.generation ≠ 0) ∧
    (∀ t k v, (s.Insert t k v).1 ≠ FdToken.kNull →
      FdToken.Generation ((s.Insert t k v).1) ≠ 0) ∧
    (∀ k, s.FindHandle k ≠ FdToken.kNull →
      FdToken.Generation (s.FindHandle k) ≠ 0) := by
  have hinv := FdKVCache.CacheInv_of_reachable s hr
  refine ⟨?_, ?_, ?_, ?_, ?_, ?_⟩
  · intro hashf n sl hmem
    have hsl : sl = default :=
      List.eq_of_mem_replicate
        (show sl ∈ List.replicate (if n = 0 then 1 else n) default from hmem)
    rw [hsl]
    rfl
  · intro h pos hv htrue
    obtain ⟨_, hlt, _, _, _, _⟩ := FdKVCache.ValidateHandle_some_char s h pos hv
    obtain ⟨hg1, hg2, _⟩ := hinv.2.2.1 _ (FdKVCache.slotAt_mem s pos hlt)
    cases her : (s.key_to_position.Erase (s.slotAt pos).key).1 with
    | false =>
      rw [FdKVCache.Erase_eq_idxfail s h pos hv her] at htrue
      exact nomatch htrue
    | true =>
      show ((s.Erase h).2.slotAt pos).generation =
        (if (s.slotAt pos).generation = 2 ^ 24 - 1 then 1
         else (s.slotAt pos).generation + 1)
      rw [FdKVCache.Erase_eq_success s h pos hv her]
      show ((s.slots.set pos _).getD pos default).generation = _
      rw [FdKVCache.slotAt_set_self _ _ _ hlt]
      show FdKVCache.NextGeneration (s.slotAt pos).generation = _
      rw [FdKVCache.NextGeneration_rule _ hg1 hg2]
  · intro t k v p
    exact FdKVCache.slotGen_insert s t k v p hinv
  · intro sl hmem
    obtain ⟨hg1, _, _⟩ := hinv.2.2.1 _ hmem
    omega
  · intro t k v hne
    cases hf : s.key_to_position.Find k with
    | some pos =>
      rw [FdKVCache.Insert_found_eq s t k v pos hf]
      exact FdKVCache.Generation_BuildHandle_ne_zero s pos hinv
        (FdKVCache.Find_pos_lt s k pos hinv hf)
    | none =>
      by_cases hap : (s.AllocatePosition).1 = FdKVCache.kInvalidPosition
      · rw [FdKVCache.Insert_alloc_fail_eq s t k v hf hap] at hne
        exact absurd rfl hne
      · obtain ⟨hinv1, ha2, ha3, ha4, ha5, ha6, ha7, ha8⟩ :=
          FdKVCache.AllocatePosition_facts s hinv hap
        rcases halloc : s.AllocatePosition with ⟨pos, s1⟩
        rw [halloc] at hinv1 ha2 ha3 ha4 ha5 ha6 ha7 ha8 hap
        dsimp only at hinv1 ha2 ha3 ha4 ha5 ha6 ha7 ha8 hap
        have hlt1 : pos < s1.slots.length := by rw [ha2]; exact ha5
        cases hins : (s1.key_to_position.Insert k pos).1 with
        | true =>
          rw [FdKVCache.Insert_fresh_success_eq s t k v pos s1 hf halloc
            hap hlt1 hins]
          show FdToken.Generation
            (FdToken.Make t (s1.slotAt pos).generation pos) ≠ 0
          rw [FdToken.generation_make]
          have hmem : s1.slotAt pos ∈ s.slots := by
            show s1.slots.getD pos default ∈ s.slots
            rw [ha2]
            exact FdKVCache.slotAt_mem s pos ha5
          obtain ⟨hg1, hg2, _⟩ := hinv.2.2.1 _ hmem
          have hk := FdKVCache.kMaxGeneration_eq
          omega
        | false =>
          rw [FdKVCache.Insert_rollback_eq s t k v pos s1 hf halloc hap
            hins] at hne
          exact absurd rfl hne
  · intro k hne
    cases hf : s.key_to_position.Find k with
    | none => exact absurd (FdKVCache.FindHandle_eq_kNull s k hf) hne
    | some pos =>
      have hfh : s.FindHandle k = s.BuildHandle pos := by
        unfold FdKVCache.FindHandle
        rw [hf]
      rw [hfh]
      exact FdKVCache.Generation_BuildHandle_ne_zero s pos hinv
        (FdKVCache.Find_pos_lt s k pos hinv hf)

/-- Witness for C7: on a capacity-2 cache holding one entry, erasing via
the returned handle bumps the slot generation per the stated rule. -/
theorem C7_generation_lifecycle_witness :
    FdKVCache.slotGen
        ((FdKVCache.run (FdKVCache.Reserve id 2) [.ins 1 5 7]).Erase
          (FdToken.Make 1 1 0)).2 0 =
      (if FdKVCache.slotGen
            (FdKVCache.run (FdKVCache.Reserve id 2) [.ins 1 5 7]) 0 =
          2 ^ 24 - 1 then 1
       else FdKVCache.slotGen
            (FdKVCache.run (FdKVCache.Reserve id 2) [.ins 1 5 7]) 0 + 1) :=
  (C7_generation_lifecycle _ ⟨id, 2, [.ins 1 5 7], by norm_num, rfl⟩).2.1
    (FdToken.Make 1 1 0) 0 (by decide) (by decide)

/-! ## Theorems: stale-handle detection (claim C2) -/

namespace FdKVCache

theorem ValidateHandle_none_of_gen_ne (s : FdKVCache) (h : Nat)
    (hne : slotGen s (FdToken.Position h) ≠ FdToken.Generation h) :
    s.ValidateHandle h = none := by
  cases hv : s.ValidateHandle h with
  | none => rfl
  | some pos =>
    obtain ⟨hq, _, _, _, hgen, _⟩ := ValidateHandle_some_char s h pos hv
    rw [hq] at hgen
    exact absurd hgen hne

theorem Get_eq_none_of_validate (s : FdKVCache) (h : Nat)
    (hv : s.ValidateHandle h = none) : s.Get h = none := by
  simp only [Get, hv]

end FdKVCache

namespace ShardedFdKVCache

theorem ValidateSlot_gen_ne (slot : FdKVCache.Slot) (h : Nat)
    (hne : slot.generation ≠ FdToken.Generation h) :
    ValidateSlot slot h = false := by
  unfold ValidateSlot
  by_cases h1 : slot.occupied = false
  · rw [if_pos h1]
  · rw [if_neg h1]
    by_cases h2 : slot.type ≠ FdToken.TypeOf h
    · rw [if_pos h2]
    · rw [if_neg h2, if_pos hne]

theorem Read_gen_ne (st : State) (h : Nat)
    (hne : ((st.shards.getD (DecodePosition h).1 default).slots.getD
        (DecodePosition h).2 default).generation ≠ FdToken.Generation h) :
    Read st h = none := by
  show (if ValidShardId st (DecodePosition h).1 = false ∨
        (DecodePosition h).2 ≥ st.per_shard_capacity then none
      else if ValidateSlot ((st.shards.getD (DecodePosition h).1
            default).slots.getD (DecodePosition h).2 default) h then
        some ((st.shards.getD (DecodePosition h).1 default).slots.getD
          (DecodePosition h).2 default).value
      else none) = none
  by_cases hg : ValidShardId st (DecodePosition h).1 = false ∨
      (DecodePosition h).2 ≥ st.per_shard_capacity
  · rw [if_pos hg]
  · rw [if_neg hg, ValidateSlot_gen_ne _ _ hne]
    simp

theorem Write_gen_ne (st : State) (h : Nat) (w : Nat → Nat)
    (hne : ((st.shards.getD (DecodePosition h).1 default).slots.getD
        (DecodePosition h).2 default).generation ≠ FdToken.Generation h) :
    Write st h w = (false, st) := by
  show (if ValidShardId st (DecodePosition h).1 = false ∨
        (DecodePosition h).2 ≥ st.per_shard_capacity then (false, st)
      else if ValidateSlot ((st.shards.getD (DecodePosition h).1
            default).slots.getD (DecodePosition h).2 default) h then
        _
      else (false, st)) = (false, st)
  by_cases hg : ValidShardId st (DecodePosition h).1 = false ∨
      (DecodePosition h).2 ≥ st.per_shard_capacity
  · rw [if_pos hg]
  · rw [if_neg hg, ValidateSlot_gen_ne _ _ hne]
    simp

end ShardedFdKVCache

/-- C2 amended: stale-handle detection holds while the erased position
suffers fewer than `2²⁴ − 1` total generation bumps: for every reachable
single-owner cache state `s` and handle `h`, if `erase(h)` succeeds and
the subsequent operation trace erases the handle's position fewer than
`2²⁴ − 2` more times, then `get(h)` returns null and `erase(h)` returns
false afterwards; and in the sharded cache, any `read`/`write`/`update`
whose handle generation differs from the target slot's current
generation fails.  (Without the bound the property fails: the generation
counter wraps — see the counterexample.) -/
theorem C2_stale_handle_amended (s : FdKVCache)
    (hr : FdKVCache.CacheReachable s) (h : Nat)
    (ops : List FdKVCache.CacheOp)
    (herase : (s.Erase h).1 = true)
    (hbound : FdKVCache.countDelAt (FdToken.Position h) ops + 1 <
      FdKVCache.kMaxGeneration) :
    (FdKVCache.run (s.Erase h).2 ops).Get h = none ∧
    ((FdKVCache.run (s.Erase h).2 ops).Erase h).1 = false ∧
    (∀ (st : ShardedFdKVCache.State) (hh : Nat) (w : Nat → Nat) (v : Nat),
      ((st.shards.getD (ShardedFdKVCache.DecodePosition hh).1
            default).slots.getD (ShardedFdKVCache.DecodePosition hh).2
          default).generation ≠ FdToken.Generation hh →
      ShardedFdKVCache.Read st hh = none ∧
      ShardedFdKVCache.Write st hh w = (false, st) ∧
      ShardedFdKVCache.Update st hh v = (false, st)) := by
  have hinv := FdKVCache.CacheInv_of_reachable s hr
  cases hv : s.ValidateHandle h with
  | none =>
    rw [FdKVCache.Erase_eq_none s h hv] at herase
    exact nomatch herase
  | some pos =>
    obtain ⟨hq, hlt, hocc, htyp, hgen, hnull⟩ :=
      FdKVCache.ValidateHandle_some_char s h pos hv
    subst hq
    obtain ⟨hg1, hg2, _⟩ := hinv.2.2.1 _
      (FdKVCache.slotAt_mem s (FdToken.Position h) hlt)
    cases her : (s.key_to_position.Erase
        (s.slotAt (FdToken.Position h)).key).1 with
    | false =>
      rw [FdKVCache.Erase_eq_idxfail s h (FdToken.Position h) hv her]
        at herase
      exact nomatch herase
    | true =>
      have hinv1 := (FdKVCache.CacheInv_erase s h hinv).1
      have hgen1 : FdKVCache.slotGen (s.Erase h).2 (FdToken.Position h) =
          FdKVCache.NextGeneration
            ((s.slotAt (FdToken.Position h)).generation) := by
        rw [FdKVCache.Erase_eq_success s h (FdToken.Position h) hv her]
        show ((s.slots.set (FdToken.Position h) _).getD
          (FdToken.Position h) default).generation = _
        rw [FdKVCache.slotAt_set_self _ _ _ hlt]
      obtain ⟨j, hj1, hj2⟩ :=
        FdKVCache.slotGen_run ops (s.Erase h).2 (FdToken.Position h) hinv1
      have hne : FdKVCache.slotGen (FdKVCache.run (s.Erase h).2 ops)
          (FdToken.Position h) ≠ FdToken.Generation h := by
        rw [hj2, hgen1, ← Function.iterate_succ_apply, ← hgen]
        exact FdKVCache.NextGeneration_iterate_ne (j + 1) _ hg1 hg2
          (by omega) (by omega)
      have hvnone : (FdKVCache.run (s.Erase h).2 ops).ValidateHandle h =
          none := FdKVCache.ValidateHandle_none_of_gen_ne _ h hne
      refine ⟨FdKVCache.Get_eq_none_of_validate _ h hvnone, ?_, ?_⟩
      · rw [FdKVCache.Erase_eq_none _ h hvnone]
      · intro st hh w v hmis
        exact ⟨ShardedFdKVCache.Read_gen_ne st hh hmis,
          ShardedFdKVCache.Write_gen_ne st hh w hmis,
          ShardedFdKVCache.Write_gen_ne st hh (fun _ => v) hmis⟩

/-- Witness for C2 amended: on a capacity-2 cache holding one entry,
after erasing via the entry's handle a later `get`/`erase` with the
stale handle fails. -/
theorem C2_stale_handle_amended_witness :
    (FdKVCache.run ((FdKVCache.run (FdKVCache.Reserve id 2)
        [.ins 1 5 7]).Erase (FdToken.Make 1 1 0)).2 []).Get
      (FdToken.Make 1 1 0) = none ∧
    ((FdKVCache.run ((FdKVCache.run (FdKVCache.Reserve id 2)
        [.ins 1 5 7]).Erase (FdToken.Make 1 1 0)).2 []).Erase
      (FdToken.Make 1 1 0)).1 = false :=
  ⟨(C2_stale_handle_amended _ ⟨id, 2, [.ins 1 5 7], by norm_num, rfl⟩
      (FdToken.Make 1 1 0) [] (by decide) (by decide)).1,
    (C2_stale_handle_amended _ ⟨id, 2, [.ins 1 5 7], by norm_num, rfl⟩
      (FdToken.Make 1 1 0) [] (by decide) (by decide)).2.1⟩

namespace FdKVCache

theorem cycleStep_wrapFree (g v : Nat) (hg2 : g ≤ kMaxGeneration) :
    cycleStep (wrapFree g v) = wrapFree (NextGeneration g) 0 := by
  have hk := kMaxGeneration_eq
  have hfh : (((wrapFree g v).Insert 1 0 0).2).FindHandle 0 =
      FdToken.Make 1 g 0 := rfl
  have hpos : FdToken.Position (FdToken.Make 1 g 0) = 0 := by
    rw [FdToken.position_make]
    rfl
  have hgm : FdToken.Generation (FdToken.Make 1 g 0) = g := by
    rw [FdToken.generation_make]
    exact Nat.mod_eq_of_lt (by omega)
  have htm : FdToken.TypeOf (FdToken.Make 1 g 0) = 1 := by
    rw [FdToken.type_make]
    rfl
  have hnull : ¬ FdToken.IsNull (FdToken.Make 1 g 0) = true := by
    intro hc
    have he : FdToken.Make 1 g 0 = FdToken.kNull := by
      simpa [FdToken.IsNull] using hc
    rw [he] at htm
    exact absurd htm (by decide)
  show ((((wrapFree g v).Insert 1 0 0).2).Erase
    ((((wrapFree g v).Insert 1 0 0).2).FindHandle 0)).2 = _
  rw [hfh]
  have hval : (((wrapFree g v).Insert 1 0 0).2).ValidateHandle
      (FdToken.Make 1 g 0) = some (FdToken.Position (FdToken.Make 1 g 0)) :=
    ValidateHandle_eq_some _ _ hnull
      (by rw [hpos]; exact Nat.zero_lt_one)
      (by rw [hpos]; rfl)
      (by rw [hpos, htm]; rfl)
      (by rw [hpos, hgm]; rfl)
  rw [hpos] at hval
  have her : ((((wrapFree g v).Insert 1 0 0).2).key_to_position.Erase
      (((((wrapFree g v).Insert 1 0 0).2).slotAt 0).key)).1 = true := rfl
  rw [Erase_eq_success _ (FdToken.Make 1 g 0) 0 hval her]
  rfl

theorem cycleStep_iterate (n : Nat) :
    ∀ g v, g ≤ kMaxGeneration →
    cycleStep^[n] (wrapFree g v) =
      wrapFree (NextGeneration^[n] g) (if n = 0 then v else 0) := by
  induction n with
  | zero =>
    intro g v _
    rfl
  | succ n ih =>
    intro g v hg2
    rw [Function.iterate_succ_apply, cycleStep_wrapFree g v hg2]
    obtain ⟨hr1, hr2⟩ := NextGeneration_range g
    rw [ih (NextGeneration g) 0 hr2, ← Function.iterate_succ_apply,
      ite_self, if_neg (Nat.succ_ne_zero n)]

end FdKVCache

/-- C2 counterexample (generation wrap): on a capacity-1 cache, insert
key 0 (handle `Make 1 1 0`), erase it successfully, then run `2²⁴ − 2`
reinsert-and-erase cycles of the same key; the slot's generation wraps
back to 1, so after one final reinsert the long-stale handle `Make 1 1 0`
validates again and `get` returns the new value 200 instead of the null
the claim promises for every subsequent `get(h)`. -/
theorem C2_stale_handle_counterexample :
    ((FdKVCache.Reserve id 1).Insert 1 0 100).1 = FdToken.Make 1 1 0 ∧
    ((((FdKVCache.Reserve id 1).Insert 1 0 100).2).Erase
      (FdToken.Make 1 1 0)).1 = true ∧
    ((FdKVCache.cycleStep^[2 ^ 24 - 2]
        ((((FdKVCache.Reserve id 1).Insert 1 0 100).2).Erase
          (FdToken.Make 1 1 0)).2).Insert 1 0 200).2.Get
      (FdToken.Make 1 1 0) = some 200 := by
  refine ⟨rfl, rfl, ?_⟩
  have h0 : ((((FdKVCache.Reserve id 1).Insert 1 0 100).2).Erase
      (FdToken.Make 1 1 0)).2 = FdKVCache.wrapFree 2 100 := rfl
  rw [h0]
  rw [FdKVCache.cycleStep_iterate (2 ^ 24 - 2) 2 100
    (by rw [FdKVCache.kMaxGeneration_eq]; norm_num)]
  have hit : FdKVCache.NextGeneration^[2 ^ 24 - 2] 2 = 1 := by
    rw [FdKVCache.NextGeneration_iterate (2 ^ 24 - 2) 2 (by norm_num)
      (by rw [FdKVCache.kMaxGeneration_eq]; norm_num)]
    rw [FdKVCache.kMaxGeneration_eq]
    norm_num
  rw [hit, if_neg (by norm_num)]
  decide

/-! ## Theorems: flat-index load bound (claim C1) -/

namespace detail

theorem getD_eq_getElem_entries (l : List Entry) (p : Nat)
    (hp : p < l.length) : l.getD p default = l[p] := by
  rw [List.getD_eq_getElem?_getD, List.getElem?_eq_getElem hp]
  rfl

theorem countOccEntries_set (tbl : List Entry) (j : Nat) (e : Entry)
    (hj : j < tbl.length) :
    countOccEntries (tbl.set j e) =
      countOccEntries tbl -
        (if (tbl.getD j default).state == EState.occupied then 1 else 0) +
        (if e.state == EState.occupied then 1 else 0) := by
  unfold countOccEntries
  rw [List.countP_set _ _ _ _ hj, getD_eq_getElem_entries tbl j hj]

theorem occupied_le_countOccEntries (tbl : List Entry) (j : Nat)
    (hj : j < tbl.length)
    (hocc : (tbl.getD j default).state = EState.occupied) :
    1 ≤ countOccEntries tbl := by
  have h := List.boole_getElem_le_countP
    (fun e => e.state == EState.occupied) tbl j hj
  rw [← getD_eq_getElem_entries tbl j hj, hocc] at h
  unfold countOccEntries
  exact h

theorem IdxInv_init (hashf : Nat → Nat) (n : Nat) (hn : n ≤ 2 ^ 32) :
    IdxInv (FlatIndexMap.Init hashf n) := by
  rw [FlatIndexMap.Init_eq]
  have hme : (1 : Nat) ≤ (if n = 0 then 1 else n) := by split <;> omega
  have hme32 : (if n = 0 then 1 else n) ≤ 2 ^ 32 := by split <;> omega
  have hmod2 : (if n = 0 then 1 else n) * 2 % 2 ^ 64 =
      (if n = 0 then 1 else n) * 2 := Nat.mod_eq_of_lt (by omega)
  obtain ⟨hcap1, hcap2, hcap63⟩ :=
    NextPowerOfTwo_facts ((if n = 0 then 1 else n) * 2 % 2 ^ 64) (by omega)
  refine ⟨?_, hme, ?_, ?_⟩
  · show (List.replicate
      (NextPowerOfTwo ((if n = 0 then 1 else n) * 2 % 2 ^ 64))
      (default : Entry)).length =
      (NextPowerOfTwo ((if n = 0 then 1 else n) * 2 % 2 ^ 64) +
        (2 ^ 64 - 1)) % 2 ^ 64 + 1
    rw [List.length_replicate]
    omega
  · show 2 * (if n = 0 then 1 else n) ≤ (List.replicate _ _).length
    rw [List.length_replicate]
    omega
  · show (0 : Nat) = countOccEntries (List.replicate _ default)
    have hz : countOccEntries (List.replicate
        (NextPowerOfTwo ((if n = 0 then 1 else n) * 2 % 2 ^ 64))
        default) = 0 := by
      apply List.countP_eq_zero.mpr
      intro e he
      rw [List.eq_of_mem_replicate he]
      decide
    rw [hz]

theorem IdxInv_insert (m : FlatIndexMap) (k v : Nat) (hinv : IdxInv m) :
    IdxInv (m.Insert k v).2 := by
  obtain ⟨hi1, hi2, hi3, hi4⟩ := hinv
  cases hb : (m.Insert k v).1 with
  | false =>
    rw [FlatIndexMap.Insert_snd_of_false m k v hb]
    exact ⟨hi1, hi2, hi3, hi4⟩
  | true =>
    obtain ⟨j, e1, h1, h2, h3, h4, h5, h6, h7, h8, h9, _⟩ :=
      FlatIndexMap.Insert_true_char m k v _ rfl hb
    have hjlen : j < m.table.length := by omega
    refine ⟨?_, ?_, ?_, ?_⟩
    · rw [h4, List.length_set, h2]
      exact hi1
    · rw [h3]
      exact hi2
    · rw [h3, h4, List.length_set]
      exact hi3
    · rw [h4, countOccEntries_set _ _ _ hjlen]
      have hif2 : (if e1.state == EState.occupied then 1 else 0) = 1 := by
        rw [h5]
        rfl
      rcases h9 with ⟨hs, hnocc, _⟩ | ⟨hs, hocc, _⟩
      · have hif1 : (if (m.table.getD j default).state == EState.occupied
            then 1 else 0) = 0 := by
          cases hst : (m.table.getD j default).state with
          | empty => rfl
          | deleted => rfl
          | occupied => exact absurd hst hnocc
        rw [hif1, hif2, hs]
        omega
      · have hif1 : (if (m.table.getD j default).state == EState.occupied
            then 1 else 0) = 1 := by
          rw [show (m.table.getD j default).state = EState.occupied from hocc]
          rfl
        have hge := occupied_le_countOccEntries m.table j hjlen hocc
        rw [hif1, hif2, hs]
        omega

theorem IdxInv_erase (m : FlatIndexMap) (k : Nat) (hinv : IdxInv m) :
    IdxInv (m.Erase k).2 := by
  obtain ⟨hi1, hi2, hi3, hi4⟩ := hinv
  rcases FlatIndexMap.Erase_char m k _ rfl with ⟨_, hunch⟩ |
    ⟨_, j, hj, hocc, hkey, heq⟩
  · rw [hunch]
    exact ⟨hi1, hi2, hi3, hi4⟩
  · rw [heq]
    have hjlen : j < m.table.length := by omega
    refine ⟨?_, hi2, ?_, ?_⟩
    · show (m.table.set j _).length = m.mask + 1
      rw [List.length_set]
      exact hi1
    · show 2 * m.max_entries ≤ (m.table.set j _).length
      rw [List.length_set]
      exact hi3
    · show m.size - 1 = countOccEntries (m.table.set j _)
      rw [countOccEntries_set _ _ _ hjlen]
      have hif1 : (if (m.table.getD j default).state == EState.occupied
          then 1 else 0) = 1 := by
        rw [show (m.table.getD j default).state = EState.occupied from hocc]
        rfl
      have hif2 : (if ({ m.cell j with state := EState.deleted } :
          Entry).state == EState.occupied then 1 else 0) = 0 := rfl
      rw [hif1, hif2]
      omega

theorem IdxInv_applyOp (m : FlatIndexMap) (op : IdxOp) (hinv : IdxInv m) :
    IdxInv (idxApply m op) := by
  cases op with
  | ins k v => exact IdxInv_insert m k v hinv
  | del k => exact IdxInv_erase m k hinv

theorem IdxInv_run (ops : List IdxOp) :
    ∀ m : FlatIndexMap, IdxInv m → IdxInv (idxRun m ops) := by
  induction ops with
  | nil => exact fun m hinv => hinv
  | cons op ops ih =>
    intro m hinv
    exact ih (idxApply m op) (IdxInv_applyOp m op hinv)

theorem IdxInv_of_reachable (m : FlatIndexMap) (hr : IdxReachable m) :
    IdxInv m := by
  obtain ⟨hashf, me, ops, hle, heq⟩ := hr
  rw [heq]
  exact IdxInv_run ops _ (IdxInv_init hashf me hle)

end detail

/-- C1 counterexample: in a flat index with `max_entries = 1`, insert a
key and erase it; then `size + tombstones = 1 = max_entries`, yet an
insert of an absent key still succeeds — the code's `CanInsertNew` tests
`size_ < max_entries_` only, ignoring tombstones, so the claimed load
bound `size + tombstones` does not gate insertion. -/
theorem C1_load_bound_counterexample :
    ((((detail.FlatIndexMap.Init id 1).Insert 5 0).2.Erase 5).2.size +
        (((detail.FlatIndexMap.Init id 1).Insert 5 0).2.Erase 5).2.tombstones =
      (((detail.FlatIndexMap.Init id 1).Insert 5 0).2.Erase 5).2.max_entries) ∧
    (((detail.FlatIndexMap.Init id 1).Insert 5 0).2.Erase 5).2.Find 4 = none ∧
    ((((detail.FlatIndexMap.Init id 1).Insert 5 0).2.Erase 5).2.Insert 4 0).1 =
      true :=
  ⟨by decide, by decide, by decide⟩

/-- C1 amended: for every reachable flat-index state and every absent
key, a new-key insert succeeds exactly when `size < max_entries`: the
admission test is `CanInsertNew` (`size_ < max_entries_`) alone, and
tombstones play no part in it. -/
theorem C1_load_bound_amended (m : detail.FlatIndexMap)
    (hr : detail.IdxReachable m) (k v : Nat)
    (habs : m.Find k = none) :
    (m.Insert k v).1 = true ↔ m.size < m.max_entries := by
  obtain ⟨hi1, hi2, hi3, hi4⟩ := detail.IdxInv_of_reachable m hr
  constructor
  · intro htrue
    obtain ⟨j, e1, _, _, _, _, _, _, _, _, h9, t, ht, hjt, hpath⟩ :=
      detail.FlatIndexMap.Insert_true_char m k v _ rfl htrue
    rcases h9 with ⟨_, _, hcan⟩ | ⟨_, hocc, hkey⟩
    · exact of_decide_eq_true
        (show decide (m.size < m.max_entries) = true from hcan)
    · exfalso
      have hstart : m.ProbeStart k < m.mask + 1 :=
        Nat.mod_lt _ (Nat.succ_pos _)
      have hfind : m.findLoop k m.table.length (m.ProbeStart k) =
          some ((m.cell j).value) :=
        detail.FlatIndexMap.findLoop_eq_some m k ((m.cell j).value)
          m.table.length (m.ProbeStart k) t hstart ht
          (by rw [hjt]; exact hocc) (by rw [hjt]; exact hkey)
          (by rw [hjt])
          (fun s hs => ⟨(hpath s hs).1,
            fun ho hk => absurd ⟨ho, hk⟩ (hpath s hs).2⟩)
      unfold detail.FlatIndexMap.Find at habs
      by_cases hne : m.table.isEmpty
      · have htb : m.table = [] := by
          cases htb : m.table with
          | nil => rfl
          | cons a l => rw [htb] at hne; exact nomatch hne
        rw [htb] at hi1
        exact Nat.succ_ne_zero _ hi1.symm
      · rw [if_neg hne, hfind] at habs
        exact nomatch habs
  · intro hlt
    have hcan : m.CanInsertNew = true := decide_eq_true hlt
    cases hb : (m.Insert k v).1 with
    | true => rfl
    | false =>
      exfalso
      have hne : ¬ m.table.isEmpty := by
        intro hc
        have htb : m.table = [] := by
          cases htb : m.table with
          | nil => rfl
          | cons a l => rw [htb] at hc; exact nomatch hc
        rw [htb] at hi1
        exact Nat.succ_ne_zero _ hi1.symm
      have hfalse1 : (m.insertLoop k v m.table.length (m.ProbeStart k)
          none).1 = false := by
        have hie : m.Insert k v = m.insertLoop k v m.table.length
            (m.ProbeStart k) none := by
          unfold detail.FlatIndexMap.Insert
          rw [if_neg hne]
        rw [← hie]
        exact hb
      have hstart : m.ProbeStart k < m.mask + 1 :=
        Nat.mod_lt _ (Nat.succ_pos _)
      obtain ⟨_, hall⟩ := detail.FlatIndexMap.insertLoop_false_occupied m k v
        hcan m.table.length (m.ProbeStart k) none hstart
        (fun j hj => nomatch hj) hfalse1
      have hallc : ∀ c, c < m.table.length →
          (m.cell c).state = detail.EState.occupied := by
        intro c hc
        have hcL : c < m.mask + 1 := by omega
        have hs := hall ((m.mask + 1 + c - m.ProbeStart k) % (m.mask + 1))
          (by rw [hi1]; exact Nat.mod_lt _ (Nat.succ_pos _))
        have hx : m.ProbeStart k + (m.mask + 1 + c - m.ProbeStart k) =
            m.mask + 1 + c := by omega
        have hmod : (m.ProbeStart k +
            (m.mask + 1 + c - m.ProbeStart k) % (m.mask + 1)) %
            (m.mask + 1) = c := by
          rw [Nat.add_mod_mod, hx, Nat.add_mod_left, Nat.mod_eq_of_lt hcL]
        rw [hmod] at hs
        exact hs
      have hcount : detail.countOccEntries m.table = m.table.length := by
        unfold detail.countOccEntries
        apply List.countP_eq_length.mpr
        intro e he
        obtain ⟨i, hilt, hie⟩ := List.mem_iff_getElem.mp he
        have hcell : m.cell i = e := by
          show m.table.getD i default = e
          rw [detail.getD_eq_getElem_entries m.table i hilt]
          exact hie
        have hoc := hallc i hilt
        rw [hcell] at hoc
        rw [hoc]
        rfl
      omega

/-- Witness for C1 amended: on a fresh index of capacity 2, inserting the
absent key 5 succeeds, and indeed `size = 0 < 2 = max_entries`. -/
theorem C1_load_bound_amended_witness :
    ((detail.FlatIndexMap.Init id 2).Insert 5 0).1 = true ↔
      (detail.FlatIndexMap.Init id 2).size <
        (detail.FlatIndexMap.Init id 2).max_entries :=
  C1_load_bound_amended _ ⟨id, 2, [], by norm_num, rfl⟩ 5 0 (by decide)

end KVCache
